import Mathlib

/-!
Shallow embedding of the binary primitive decoder (`core::store::DataInput`)
and the fixed bit set (`core::util::bit_set`) of the rucene repository,
together with proofs of the specified properties.

Machine integers are represented by their bit patterns as `Nat` values:
an `i32` is a `Nat` below `2 ^ 32`, an `i64` a `Nat` below `2 ^ 64`,
a byte a `Nat` below `256`.  Sign tests of the source are expressed on the
pattern (an `i8` read from a byte `b` is non-negative iff `b < 128`).
A byte stream is a `List Nat`; reading a byte takes the head modulo `256`.
-/

/-- Error kinds of the `error::ErrorKind` values raised by the embedded code.
`assertionFailed` models a Rust `assert!` panic (used by `copy_from`). -/
inductive Err where
  | unexpectedEOF
  | illegalArgument
  | illegalState
  | assertionFailed
  deriving DecidableEq, Repr

deriving instance DecidableEq for Except

/-- The embedded `DataInput::read_byte`: next byte of the stream, or EOF. -/
def read_byte (s : List Nat) : Except Err (Nat × List Nat) :=
  match s with
  | [] => .error .unexpectedEOF
  | b :: rest => .ok (b % 256, rest)

/-- The embedded `DataInput::read_vint`: variable-length 32-bit decode, at most 5 bytes.
A byte read as `i8` is `>= 0` iff its pattern is `< 128`.
`i32::from(b) & 0x7f` is the pattern `b &&& 0x7f`; all accumulated fields are
disjoint and stay below `2 ^ 32`, so no wrap-around arises. -/
def read_vint (s : List Nat) : Except Err (Nat × List Nat) :=
  match read_byte s with
  | .error e => .error e
  | .ok (b, s) =>
  if b < 128 then .ok (b, s) else
  let i := b &&& 0x7f
  match read_byte s with
  | .error e => .error e
  | .ok (b, s) =>
  let i := i ||| ((b &&& 0x7f) <<< 7)
  if b < 128 then .ok (i, s) else
  match read_byte s with
  | .error e => .error e
  | .ok (b, s) =>
  let i := i ||| ((b &&& 0x7f) <<< 14)
  if b < 128 then .ok (i, s) else
  match read_byte s with
  | .error e => .error e
  | .ok (b, s) =>
  let i := i ||| ((b &&& 0x7f) <<< 21)
  if b < 128 then .ok (i, s) else
  match read_byte s with
  | .error e => .error e
  | .ok (b, s) =>
  let i := i ||| ((b &&& 0x0f) <<< 28)
  if b &&& 0xf0 ≠ 0 then .error .illegalState
  else .ok (i, s)

/-- The embedded `DataInput::read_vlong_ex`: variable-length 64-bit decode.  Bytes one to
nine contribute seven bits each (shifts 0, 7, ..., 56); with
`negative_allowed` a tenth byte that must be exactly 0 or 1 contributes
bit 63.  All fields are disjoint and the result stays below `2 ^ 64`. -/
def read_vlong_ex (negative_allowed : Bool) (s : List Nat) :
    Except Err (Nat × List Nat) :=
  match read_byte s with
  | .error e => .error e
  | .ok (b, s) =>
  if b < 128 then .ok (b, s) else
  let i := b &&& 0x7f
  match read_byte s with
  | .error e => .error e
  | .ok (b, s) =>
  let i := i ||| ((b &&& 0x7f) <<< 7)
  if b < 128 then .ok (i, s) else
  match read_byte s with
  | .error e => .error e
  | .ok (b, s) =>
  let i := i ||| ((b &&& 0x7f) <<< 14)
  if b < 128 then .ok (i, s) else
  match read_byte s with
  | .error e => .error e
  | .ok (b, s) =>
  let i := i ||| ((b &&& 0x7f) <<< 21)
  if b < 128 then .ok (i, s) else
  match read_byte s with
  | .error e => .error e
  | .ok (b, s) =>
  let i := i ||| ((b &&& 0x7f) <<< 28)
  if b < 128 then .ok (i, s) else
  match read_byte s with
  | .error e => .error e
  | .ok (b, s) =>
  let i := i ||| ((b &&& 0x7f) <<< 35)
  if b < 128 then .ok (i, s) else
  match read_byte s with
  | .error e => .error e
  | .ok (b, s) =>
  let i := i ||| ((b &&& 0x7f) <<< 42)
  if b < 128 then .ok (i, s) else
  match read_byte s with
  | .error e => .error e
  | .ok (b, s) =>
  let i := i ||| ((b &&& 0x7f) <<< 49)
  if b < 128 then .ok (i, s) else
  match read_byte s with
  | .error e => .error e
  | .ok (b, s) =>
  let i := i ||| ((b &&& 0x7f) <<< 56)
  if b < 128 then .ok (i, s) else
  if negative_allowed then
    match read_byte s with
    | .error e => .error e
    | .ok (b, s) =>
    if b = 0 ∨ b = 1 then .ok (i ||| ((b &&& 0x7f) <<< 63), s)
    else .error .illegalState
  else .error .illegalState

/-- The embedded `DataInput::read_vlong`: `read_vlong_ex` with `negative_allowed = false`. -/
def read_vlong (s : List Nat) : Except Err (Nat × List Nat) :=
  read_vlong_ex false s

/-- Modelled from the spec: `ZigZagEncoding::decode` for `i32` (the trait lives
in `core::util::bit_util`, which is not among the provided sources).  The spec:
the stored value `v` maps to the signed result `(v >>> 1) ^ -(v & 1)`.  On the
32-bit pattern, `-(v & 1)` is `0` when `v` is even and the all-ones pattern
`2 ^ 32 - 1` when `v` is odd. -/
def zigzag_decode32 (v : Nat) : Nat :=
  (v >>> 1) ^^^ ((2 ^ 32 - (v &&& 1)) % 2 ^ 32)

/-- Modelled from the spec: `ZigZagEncoding::decode` for `i64`, as above with
width 64. -/
def zigzag_decode64 (v : Nat) : Nat :=
  (v >>> 1) ^^^ ((2 ^ 64 - (v &&& 1)) % 2 ^ 64)

/-- The embedded `DataInput::read_zint`: `read_vint` followed by the zig-zag decode. -/
def read_zint (s : List Nat) : Except Err (Nat × List Nat) :=
  match read_vint s with
  | .error e => .error e
  | .ok (v, s) => .ok (zigzag_decode32 v, s)

/-- The embedded `DataInput::read_zlong`: `read_vlong_ex true` followed by the zig-zag
decode. -/
def read_zlong (s : List Nat) : Except Err (Nat × List Nat) :=
  match read_vlong_ex true s with
  | .error e => .error e
  | .ok (v, s) => .ok (zigzag_decode64 v, s)

/-- Modelled from the spec: the writer side of the variable-length encoding
(not among the provided sources): "little-endian base-128 groups, continuation
bit = bit 7 of each byte".  Works for both the 32-bit and the 64-bit forms;
for a value with bit 63 set the tenth emitted byte is exactly `1`, matching
the sign byte of the `vlong with sign extension` wire form. -/
def write_varint (v : Nat) : List Nat :=
  if v < 128 then [v] else (v % 128 + 128) :: write_varint (v / 128)
termination_by v
decreasing_by exact Nat.div_lt_self (by omega) (by omega)

/-- Modelled from the spec: the zig-zag map on signed 32-bit values: "even
encodes `n/2` for non-negative `n`, odd encodes `-(n+1)/2`", i.e. a
non-negative `n` is stored as `2 * n` and a negative `n` as `-2 * n - 1`. -/
def zigzag_encode32 (n : Int) : Nat :=
  if 0 ≤ n then (2 * n).toNat else (-2 * n - 1).toNat

/-- Modelled from the spec: the zig-zag map on signed 64-bit values. -/
def zigzag_encode64 (n : Int) : Nat :=
  if 0 ≤ n then (2 * n).toNat else (-2 * n - 1).toNat

/-- The 32-bit pattern of a signed value (twos complement). -/
def pat32 (n : Int) : Nat := (n % 2 ^ 32).toNat

/-- The 64-bit pattern of a signed value (twos complement). -/
def pat64 (n : Int) : Nat := (n % 2 ^ 64).toNat

/-! Helper lemmas for the decoder -/

theorem and_mask_127 (x : Nat) : x &&& 127 = x % 128 := by
  have h := Nat.and_pow_two_sub_one_eq_mod x 7
  norm_num at h
  exact h

theorem and_mask_15 (x : Nat) : x &&& 15 = x % 16 := by
  have h := Nat.and_pow_two_sub_one_eq_mod x 4
  norm_num at h
  exact h

/-- Accumulating a fresh 7-bit field with bitwise or is addition when the
fields are disjoint. -/
theorem lor_acc {a : Nat} (k d : Nat) (h : a < 2 ^ k) : a ||| d <<< k = a + d * 2 ^ k := by
  rw [Nat.shiftLeft_eq, Nat.lor_comm, Nat.mul_comm d (2 ^ k), ← Nat.mul_add_lt_is_or h d]
  omega

theorem write_varint_small {v : Nat} (h : v < 128) : write_varint v = [v] := by
  rw [write_varint, if_pos h]

theorem write_varint_big {v : Nat} (h : 128 ≤ v) :
    write_varint v = (v % 128 + 128) :: write_varint (v / 128) := by
  rw [write_varint, if_neg (by omega)]


/-! Claim C4 -/

/-- Claim C4: `read_vint` consumes at most 5 bytes; a first byte with bit 7
clear terminates immediately with that byte as value; each earlier byte
contributes its 7 low bits little-endian; on a 5-byte encoding the call fails
with IllegalState when any of the top 4 bits of the 5th byte is set and
otherwise only the low 4 bits of that byte contribute (bits 28-31); decoding
`[0xAC, 0x02]` yields 300. -/
theorem C4_read_vint_spec :
    (∀ s v rest, read_vint s = .ok (v, rest) → ∃ k ≤ 5, rest = s.drop k) ∧
    (∀ b rest, b < 128 → read_vint (b :: rest) = .ok (b, rest)) ∧
    (∀ b1 b2 b3 b4 b5 rest, 128 ≤ b1 → b1 < 256 → 128 ≤ b2 → b2 < 256 →
      128 ≤ b3 → b3 < 256 → 128 ≤ b4 → b4 < 256 → b5 < 256 →
      (b5 &&& 0xf0 ≠ 0 →
        read_vint (b1 :: b2 :: b3 :: b4 :: b5 :: rest) = .error .illegalState) ∧
      (b5 &&& 0xf0 = 0 →
        read_vint (b1 :: b2 :: b3 :: b4 :: b5 :: rest) =
          .ok ((b1 &&& 127) + (b2 &&& 127) * 2 ^ 7 + (b3 &&& 127) * 2 ^ 14 +
               (b4 &&& 127) * 2 ^ 21 + (b5 &&& 15) * 2 ^ 28, rest))) ∧
    read_vint [0xAC, 0x02] = .ok (300, []) := by
  refine ⟨?_, ?_, ?_, by decide⟩
  · intro s v rest h
    rcases s with _ | ⟨b1, s1⟩
    · simp [read_vint, read_byte] at h
    by_cases h1 : b1 % 256 < 128
    · refine ⟨1, by omega, ?_⟩
      simp [read_vint, read_byte, h1] at h
      simp [h.2]
    rcases s1 with _ | ⟨b2, s2⟩
    · simp [read_vint, read_byte, h1] at h
    by_cases h2 : b2 % 256 < 128
    · refine ⟨2, by omega, ?_⟩
      simp [read_vint, read_byte, h1, h2] at h
      simp [h.2]
    rcases s2 with _ | ⟨b3, s3⟩
    · simp [read_vint, read_byte, h1, h2] at h
    by_cases h3 : b3 % 256 < 128
    · refine ⟨3, by omega, ?_⟩
      simp [read_vint, read_byte, h1, h2, h3] at h
      simp [h.2]
    rcases s3 with _ | ⟨b4, s4⟩
    · simp [read_vint, read_byte, h1, h2, h3] at h
    by_cases h4 : b4 % 256 < 128
    · refine ⟨4, by omega, ?_⟩
      simp [read_vint, read_byte, h1, h2, h3, h4] at h
      simp [h.2]
    rcases s4 with _ | ⟨b5, s5⟩
    · simp [read_vint, read_byte, h1, h2, h3, h4] at h
    refine ⟨5, by omega, ?_⟩
    by_cases h5 : b5 % 256 &&& 240 ≠ 0
    · simp [read_vint, read_byte, h1, h2, h3, h4, h5] at h
    · simp [read_vint, read_byte, h1, h2, h3, h4, h5] at h
      simp [h.2]
  · intro b rest hb
    have : b % 256 = b := Nat.mod_eq_of_lt (by omega)
    simp [read_vint, read_byte, this, hb]
  · intro b1 b2 b3 b4 b5 rest g1 l1 g2 l2 g3 l3 g4 l4 l5
    have m1 : b1 % 256 = b1 := Nat.mod_eq_of_lt l1
    have m2 : b2 % 256 = b2 := Nat.mod_eq_of_lt l2
    have m3 : b3 % 256 = b3 := Nat.mod_eq_of_lt l3
    have m4 : b4 % 256 = b4 := Nat.mod_eq_of_lt l4
    have m5 : b5 % 256 = b5 := Nat.mod_eq_of_lt l5
    have n1 : ¬ b1 < 128 := by omega
    have n2 : ¬ b2 < 128 := by omega
    have n3 : ¬ b3 < 128 := by omega
    have n4 : ¬ b4 < 128 := by omega
    have e1 : b1 &&& 127 < 2 ^ 7 := by rw [and_mask_127]; omega
    have e2 : (b1 &&& 127) + (b2 &&& 127) * 2 ^ 7 < 2 ^ 14 := by
      rw [and_mask_127, and_mask_127]; omega
    have e3 : (b1 &&& 127) + (b2 &&& 127) * 2 ^ 7 + (b3 &&& 127) * 2 ^ 14 < 2 ^ 21 := by
      rw [and_mask_127, and_mask_127, and_mask_127]; omega
    have e4 : (b1 &&& 127) + (b2 &&& 127) * 2 ^ 7 + (b3 &&& 127) * 2 ^ 14
        + (b4 &&& 127) * 2 ^ 21 < 2 ^ 28 := by
      rw [and_mask_127, and_mask_127, and_mask_127, and_mask_127]; omega
    constructor
    · intro hbad
      simp only [read_vint, read_byte, m1, m2, m3, m4, m5]
      simp [n1, n2, n3, n4, hbad]
    · intro hok
      simp only [read_vint, read_byte, m1, m2, m3, m4, m5]
      simp only [if_neg n1, if_neg n2, if_neg n3, if_neg n4]
      rw [lor_acc 7 _ e1, lor_acc 14 _ e2, lor_acc 21 _ e3, lor_acc 28 _ e4]
      simp [hok]

/-- Witness for C4: concrete instantiations of the quantified parts. -/
theorem C4_witness :
    read_vint [0x80, 0x80, 0x80, 0x80, 0xFF] = .error .illegalState ∧
    read_vint [0x05] = .ok (5, []) ∧
    read_vint [0xAC, 0x02, 0x80, 0x80, 0x80, 0x80, 0x80] =
      .ok (300, [0x80, 0x80, 0x80, 0x80, 0x80]) := by
  refine ⟨?_, ?_, ?_⟩
  · exact (C4_read_vint_spec.2.2.1 0x80 0x80 0x80 0x80 0xFF []
      (by decide) (by decide) (by decide) (by decide) (by decide) (by decide)
      (by decide) (by decide) (by decide)).1 (by decide)
  · exact C4_read_vint_spec.2.1 0x05 [] (by decide)
  · have h := C4_read_vint_spec.1 [0xAC, 0x02, 0x80, 0x80, 0x80, 0x80, 0x80]
    decide

/-! Claim C1 (corrected) -/

/-- Counterexample to claim C1 as stated: a 9-byte encoding in which the 8th
byte has its continuation bit set is accepted by `read_vlong`
(`negative_allowed = false`) with value `2 ^ 56`, so `read_vlong` does not
consume at most 8 bytes and a 9th byte does not imply failure. -/
theorem C1_counterexample :
    read_vlong [0x80, 0x80, 0x80, 0x80, 0x80, 0x80, 0x80, 0x80, 0x01] =
      .ok (2 ^ 56, []) ∧
    0x80 &&& 0x80 ≠ 0 ∧
    [0x80, 0x80, 0x80, 0x80, 0x80, 0x80, 0x80, 0x80, 0x01].length = 9 := by
  decide

/-- Claim C1 amended: with `negative_allowed = false`, `read_vlong_ex`
consumes at most 9 bytes, and any encoding that requires a 10th byte (all of
the first nine bytes have their continuation bit set) fails with IllegalState;
no 10-byte encoding is ever accepted when `negative_allowed` is false. -/
theorem C1_read_vlong_at_most_9_bytes :
    (∀ s v rest, read_vlong_ex false s = .ok (v, rest) → ∃ k ≤ 9, rest = s.drop k) ∧
    (∀ b1 b2 b3 b4 b5 b6 b7 b8 b9 rest,
      (∀ b ∈ [b1, b2, b3, b4, b5, b6, b7, b8, b9], 128 ≤ b ∧ b < 256) →
      read_vlong_ex false (b1 :: b2 :: b3 :: b4 :: b5 :: b6 :: b7 :: b8 :: b9 :: rest)
        = .error .illegalState) := by
  constructor
  · intro s v rest h
    rcases s with _ | ⟨b1, s1⟩
    · simp [read_vlong_ex, read_byte] at h
    by_cases h1 : b1 % 256 < 128
    · refine ⟨1, by omega, ?_⟩
      simp [read_vlong_ex, read_byte, h1] at h
      simp [h.2]
    rcases s1 with _ | ⟨b2, s2⟩
    · simp [read_vlong_ex, read_byte, h1] at h
    by_cases h2 : b2 % 256 < 128
    · refine ⟨2, by omega, ?_⟩
      simp [read_vlong_ex, read_byte, h1, h2] at h
      simp [h.2]
    rcases s2 with _ | ⟨b3, s3⟩
    · simp [read_vlong_ex, read_byte, h1, h2] at h
    by_cases h3 : b3 % 256 < 128
    · refine ⟨3, by omega, ?_⟩
      simp [read_vlong_ex, read_byte, h1, h2, h3] at h
      simp [h.2]
    rcases s3 with _ | ⟨b4, s4⟩
    · simp [read_vlong_ex, read_byte, h1, h2, h3] at h
    by_cases h4 : b4 % 256 < 128
    · refine ⟨4, by omega, ?_⟩
      simp [read_vlong_ex, read_byte, h1, h2, h3, h4] at h
      simp [h.2]
    rcases s4 with _ | ⟨b5, s5⟩
    · simp [read_vlong_ex, read_byte, h1, h2, h3, h4] at h
    by_cases h5 : b5 % 256 < 128
    · refine ⟨5, by omega, ?_⟩
      simp [read_vlong_ex, read_byte, h1, h2, h3, h4, h5] at h
      simp [h.2]
    rcases s5 with _ | ⟨b6, s6⟩
    · simp [read_vlong_ex, read_byte, h1, h2, h3, h4, h5] at h
    by_cases h6 : b6 % 256 < 128
    · refine ⟨6, by omega, ?_⟩
      simp [read_vlong_ex, read_byte, h1, h2, h3, h4, h5, h6] at h
      simp [h.2]
    rcases s6 with _ | ⟨b7, s7⟩
    · simp [read_vlong_ex, read_byte, h1, h2, h3, h4, h5, h6] at h
    by_cases h7 : b7 % 256 < 128
    · refine ⟨7, by omega, ?_⟩
      simp [read_vlong_ex, read_byte, h1, h2, h3, h4, h5, h6, h7] at h
      simp [h.2]
    rcases s7 with _ | ⟨b8, s8⟩
    · simp [read_vlong_ex, read_byte, h1, h2, h3, h4, h5, h6, h7] at h
    by_cases h8 : b8 % 256 < 128
    · refine ⟨8, by omega, ?_⟩
      simp [read_vlong_ex, read_byte, h1, h2, h3, h4, h5, h6, h7, h8] at h
      simp [h.2]
    rcases s8 with _ | ⟨b9, s9⟩
    · simp [read_vlong_ex, read_byte, h1, h2, h3, h4, h5, h6, h7, h8] at h
    by_cases h9 : b9 % 256 < 128
    · refine ⟨9, by omega, ?_⟩
      simp [read_vlong_ex, read_byte, h1, h2, h3, h4, h5, h6, h7, h8, h9] at h
      simp [h.2]
    · simp [read_vlong_ex, read_byte, h1, h2, h3, h4, h5, h6, h7, h8, h9] at h
  · intro b1 b2 b3 b4 b5 b6 b7 b8 b9 rest hb
    simp only [List.mem_cons, List.not_mem_nil, or_false, forall_eq_or_imp, forall_eq] at hb
    obtain ⟨⟨g1, l1⟩, ⟨g2, l2⟩, ⟨g3, l3⟩, ⟨g4, l4⟩, ⟨g5, l5⟩, ⟨g6, l6⟩, ⟨g7, l7⟩,
      ⟨g8, l8⟩, ⟨g9, l9⟩⟩ := hb
    have m1 : b1 % 256 = b1 := Nat.mod_eq_of_lt l1
    have m2 : b2 % 256 = b2 := Nat.mod_eq_of_lt l2
    have m3 : b3 % 256 = b3 := Nat.mod_eq_of_lt l3
    have m4 : b4 % 256 = b4 := Nat.mod_eq_of_lt l4
    have m5 : b5 % 256 = b5 := Nat.mod_eq_of_lt l5
    have m6 : b6 % 256 = b6 := Nat.mod_eq_of_lt l6
    have m7 : b7 % 256 = b7 := Nat.mod_eq_of_lt l7
    have m8 : b8 % 256 = b8 := Nat.mod_eq_of_lt l8
    have m9 : b9 % 256 = b9 := Nat.mod_eq_of_lt l9
    have n1 : ¬ b1 < 128 := by omega
    have n2 : ¬ b2 < 128 := by omega
    have n3 : ¬ b3 < 128 := by omega
    have n4 : ¬ b4 < 128 := by omega
    have n5 : ¬ b5 < 128 := by omega
    have n6 : ¬ b6 < 128 := by omega
    have n7 : ¬ b7 < 128 := by omega
    have n8 : ¬ b8 < 128 := by omega
    have n9 : ¬ b9 < 128 := by omega
    simp only [read_vlong_ex, read_byte, m1, m2, m3, m4, m5, m6, m7, m8, m9]
    simp [n1, n2, n3, n4, n5, n6, n7, n8, n9]

/-- Witness for the amended C1. -/
theorem C1_witness :
    read_vlong_ex false
      [0x81, 0x81, 0x81, 0x81, 0x81, 0x81, 0x81, 0x81, 0x81, 0x00]
      = .error .illegalState := by
  exact C1_read_vlong_at_most_9_bytes.2 0x81 0x81 0x81 0x81 0x81 0x81 0x81 0x81 0x81
    [0x00] (by decide)

/-! Claim C10 -/

/-- Claim C10: a successful `read_vlong` (`negative_allowed = false`) always
returns a value whose bit 63 is clear (the i64 result is non-negative); with
`negative_allowed = true` a negative result (bit 63 set) arises only from a
10-byte encoding whose final sign byte is exactly 1 (in particular, 0 or 1). -/
theorem C10_read_vlong_nonneg :
    (∀ s v rest, read_vlong_ex false s = .ok (v, rest) → v < 2 ^ 63) ∧
    (∀ s v rest, read_vlong_ex true s = .ok (v, rest) → 2 ^ 63 ≤ v →
      10 ≤ s.length ∧ s.getD 9 0 % 256 = 1 ∧ rest = s.drop 10) := by
  have T : ∀ (x k : Nat), k ≤ 56 → (x &&& 127) <<< k < 2 ^ 63 := by
    intro x k hk
    have hx : x &&& 127 < 2 ^ 7 := by rw [and_mask_127]; omega
    calc (x &&& 127) <<< k < 2 ^ (7 + k) := Nat.shiftLeft_lt hx
    _ ≤ 2 ^ 63 := Nat.pow_le_pow_right (by norm_num) (by omega)
  constructor
  · intro s v rest h
    rcases s with _ | ⟨b1, s1⟩
    · simp [read_vlong_ex, read_byte] at h
    by_cases h1 : b1 % 256 < 128
    · simp [read_vlong_ex, read_byte, h1] at h
      omega
    rcases s1 with _ | ⟨b2, s2⟩
    · simp [read_vlong_ex, read_byte, h1] at h
    by_cases h2 : b2 % 256 < 128
    · simp [read_vlong_ex, read_byte, h1, h2] at h
      have c1 : b1 % 256 &&& 127 < 2 ^ 63 := by rw [and_mask_127]; omega
      have c2 := Nat.or_lt_two_pow c1 (T (b2 % 256) 7 (by norm_num))
      omega
    rcases s2 with _ | ⟨b3, s3⟩
    · simp [read_vlong_ex, read_byte, h1, h2] at h
    by_cases h3 : b3 % 256 < 128
    · simp [read_vlong_ex, read_byte, h1, h2, h3] at h
      have c1 : b1 % 256 &&& 127 < 2 ^ 63 := by rw [and_mask_127]; omega
      have c2 := Nat.or_lt_two_pow c1 (T (b2 % 256) 7 (by norm_num))
      have c3 := Nat.or_lt_two_pow c2 (T (b3 % 256) 14 (by norm_num))
      omega
    rcases s3 with _ | ⟨b4, s4⟩
    · simp [read_vlong_ex, read_byte, h1, h2, h3] at h
    by_cases h4 : b4 % 256 < 128
    · simp [read_vlong_ex, read_byte, h1, h2, h3, h4] at h
      have c1 : b1 % 256 &&& 127 < 2 ^ 63 := by rw [and_mask_127]; omega
      have c2 := Nat.or_lt_two_pow c1 (T (b2 % 256) 7 (by norm_num))
      have c3 := Nat.or_lt_two_pow c2 (T (b3 % 256) 14 (by norm_num))
      have c4 := Nat.or_lt_two_pow c3 (T (b4 % 256) 21 (by norm_num))
      omega
    rcases s4 with _ | ⟨b5, s5⟩
    · simp [read_vlong_ex, read_byte, h1, h2, h3, h4] at h
    by_cases h5 : b5 % 256 < 128
    · simp [read_vlong_ex, read_byte, h1, h2, h3, h4, h5] at h
      have c1 : b1 % 256 &&& 127 < 2 ^ 63 := by rw [and_mask_127]; omega
      have c2 := Nat.or_lt_two_pow c1 (T (b2 % 256) 7 (by norm_num))
      have c3 := Nat.or_lt_two_pow c2 (T (b3 % 256) 14 (by norm_num))
      have c4 := Nat.or_lt_two_pow c3 (T (b4 % 256) 21 (by norm_num))
      have c5 := Nat.or_lt_two_pow c4 (T (b5 % 256) 28 (by norm_num))
      omega
    rcases s5 with _ | ⟨b6, s6⟩
    · simp [read_vlong_ex, read_byte, h1, h2, h3, h4, h5] at h
    by_cases h6 : b6 % 256 < 128
    · simp [read_vlong_ex, read_byte, h1, h2, h3, h4, h5, h6] at h
      have c1 : b1 % 256 &&& 127 < 2 ^ 63 := by rw [and_mask_127]; omega
      have c2 := Nat.or_lt_two_pow c1 (T (b2 % 256) 7 (by norm_num))
      have c3 := Nat.or_lt_two_pow c2 (T (b3 % 256) 14 (by norm_num))
      have c4 := Nat.or_lt_two_pow c3 (T (b4 % 256) 21 (by norm_num))
      have c5 := Nat.or_lt_two_pow c4 (T (b5 % 256) 28 (by norm_num))
      have c6 := Nat.or_lt_two_pow c5 (T (b6 % 256) 35 (by norm_num))
      omega
    rcases s6 with _ | ⟨b7, s7⟩
    · simp [read_vlong_ex, read_byte, h1, h2, h3, h4, h5, h6] at h
    by_cases h7 : b7 % 256 < 128
    · simp [read_vlong_ex, read_byte, h1, h2, h3, h4, h5, h6, h7] at h
      have c1 : b1 % 256 &&& 127 < 2 ^ 63 := by rw [and_mask_127]; omega
      have c2 := Nat.or_lt_two_pow c1 (T (b2 % 256) 7 (by norm_num))
      have c3 := Nat.or_lt_two_pow c2 (T (b3 % 256) 14 (by norm_num))
      have c4 := Nat.or_lt_two_pow c3 (T (b4 % 256) 21 (by norm_num))
      have c5 := Nat.or_lt_two_pow c4 (T (b5 % 256) 28 (by norm_num))
      have c6 := Nat.or_lt_two_pow c5 (T (b6 % 256) 35 (by norm_num))
      have c7 := Nat.or_lt_two_pow c6 (T (b7 % 256) 42 (by norm_num))
      omega
    rcases s7 with _ | ⟨b8, s8⟩
    · simp [read_vlong_ex, read_byte, h1, h2, h3, h4, h5, h6, h7] at h
    by_cases h8 : b8 % 256 < 128
    · simp [read_vlong_ex, read_byte, h1, h2, h3, h4, h5, h6, h7, h8] at h
      have c1 : b1 % 256 &&& 127 < 2 ^ 63 := by rw [and_mask_127]; omega
      have c2 := Nat.or_lt_two_pow c1 (T (b2 % 256) 7 (by norm_num))
      have c3 := Nat.or_lt_two_pow c2 (T (b3 % 256) 14 (by norm_num))
      have c4 := Nat.or_lt_two_pow c3 (T (b4 % 256) 21 (by norm_num))
      have c5 := Nat.or_lt_two_pow c4 (T (b5 % 256) 28 (by norm_num))
      have c6 := Nat.or_lt_two_pow c5 (T (b6 % 256) 35 (by norm_num))
      have c7 := Nat.or_lt_two_pow c6 (T (b7 % 256) 42 (by norm_num))
      have c8 := Nat.or_lt_two_pow c7 (T (b8 % 256) 49 (by norm_num))
      omega
    rcases s8 with _ | ⟨b9, s9⟩
    · simp [read_vlong_ex, read_byte, h1, h2, h3, h4, h5, h6, h7, h8] at h
    by_cases h9 : b9 % 256 < 128
    · simp [read_vlong_ex, read_byte, h1, h2, h3, h4, h5, h6, h7, h8, h9] at h
      have c1 : b1 % 256 &&& 127 < 2 ^ 63 := by rw [and_mask_127]; omega
      have c2 := Nat.or_lt_two_pow c1 (T (b2 % 256) 7 (by norm_num))
      have c3 := Nat.or_lt_two_pow c2 (T (b3 % 256) 14 (by norm_num))
      have c4 := Nat.or_lt_two_pow c3 (T (b4 % 256) 21 (by norm_num))
      have c5 := Nat.or_lt_two_pow c4 (T (b5 % 256) 28 (by norm_num))
      have c6 := Nat.or_lt_two_pow c5 (T (b6 % 256) 35 (by norm_num))
      have c7 := Nat.or_lt_two_pow c6 (T (b7 % 256) 42 (by norm_num))
      have c8 := Nat.or_lt_two_pow c7 (T (b8 % 256) 49 (by norm_num))
      have c9 := Nat.or_lt_two_pow c8 (T (b9 % 256) 56 (by norm_num))
      omega
    · simp [read_vlong_ex, read_byte, h1, h2, h3, h4, h5, h6, h7, h8, h9] at h
  · intro s v rest h hv
    rcases s with _ | ⟨b1, s1⟩
    · simp [read_vlong_ex, read_byte] at h
    by_cases h1 : b1 % 256 < 128
    · exfalso
      simp [read_vlong_ex, read_byte, h1] at h
      omega
    rcases s1 with _ | ⟨b2, s2⟩
    · simp [read_vlong_ex, read_byte, h1] at h
    by_cases h2 : b2 % 256 < 128
    · exfalso
      simp [read_vlong_ex, read_byte, h1, h2] at h
      have c1 : b1 % 256 &&& 127 < 2 ^ 63 := by rw [and_mask_127]; omega
      have c2 := Nat.or_lt_two_pow c1 (T (b2 % 256) 7 (by norm_num))
      omega
    rcases s2 with _ | ⟨b3, s3⟩
    · simp [read_vlong_ex, read_byte, h1, h2] at h
    by_cases h3 : b3 % 256 < 128
    · exfalso
      simp [read_vlong_ex, read_byte, h1, h2, h3] at h
      have c1 : b1 % 256 &&& 127 < 2 ^ 63 := by rw [and_mask_127]; omega
      have c2 := Nat.or_lt_two_pow c1 (T (b2 % 256) 7 (by norm_num))
      have c3 := Nat.or_lt_two_pow c2 (T (b3 % 256) 14 (by norm_num))
      omega
    rcases s3 with _ | ⟨b4, s4⟩
    · simp [read_vlong_ex, read_byte, h1, h2, h3] at h
    by_cases h4 : b4 % 256 < 128
    · exfalso
      simp [read_vlong_ex, read_byte, h1, h2, h3, h4] at h
      have c1 : b1 % 256 &&& 127 < 2 ^ 63 := by rw [and_mask_127]; omega
      have c2 := Nat.or_lt_two_pow c1 (T (b2 % 256) 7 (by norm_num))
      have c3 := Nat.or_lt_two_pow c2 (T (b3 % 256) 14 (by norm_num))
      have c4 := Nat.or_lt_two_pow c3 (T (b4 % 256) 21 (by norm_num))
      omega
    rcases s4 with _ | ⟨b5, s5⟩
    · simp [read_vlong_ex, read_byte, h1, h2, h3, h4] at h
    by_cases h5 : b5 % 256 < 128
    · exfalso
      simp [read_vlong_ex, read_byte, h1, h2, h3, h4, h5] at h
      have c1 : b1 % 256 &&& 127 < 2 ^ 63 := by rw [and_mask_127]; omega
      have c2 := Nat.or_lt_two_pow c1 (T (b2 % 256) 7 (by norm_num))
      have c3 := Nat.or_lt_two_pow c2 (T (b3 % 256) 14 (by norm_num))
      have c4 := Nat.or_lt_two_pow c3 (T (b4 % 256) 21 (by norm_num))
      have c5 := Nat.or_lt_two_pow c4 (T (b5 % 256) 28 (by norm_num))
      omega
    rcases s5 with _ | ⟨b6, s6⟩
    · simp [read_vlong_ex, read_byte, h1, h2, h3, h4, h5] at h
    by_cases h6 : b6 % 256 < 128
    · exfalso
      simp [read_vlong_ex, read_byte, h1, h2, h3, h4, h5, h6] at h
      have c1 : b1 % 256 &&& 127 < 2 ^ 63 := by rw [and_mask_127]; omega
      have c2 := Nat.or_lt_two_pow c1 (T (b2 % 256) 7 (by norm_num))
      have c3 := Nat.or_lt_two_pow c2 (T (b3 % 256) 14 (by norm_num))
      have c4 := Nat.or_lt_two_pow c3 (T (b4 % 256) 21 (by norm_num))
      have c5 := Nat.or_lt_two_pow c4 (T (b5 % 256) 28 (by norm_num))
      have c6 := Nat.or_lt_two_pow c5 (T (b6 % 256) 35 (by norm_num))
      omega
    rcases s6 with _ | ⟨b7, s7⟩
    · simp [read_vlong_ex, read_byte, h1, h2, h3, h4, h5, h6] at h
    by_cases h7 : b7 % 256 < 128
    · exfalso
      simp [read_vlong_ex, read_byte, h1, h2, h3, h4, h5, h6, h7] at h
      have c1 : b1 % 256 &&& 127 < 2 ^ 63 := by rw [and_mask_127]; omega
      have c2 := Nat.or_lt_two_pow c1 (T (b2 % 256) 7 (by norm_num))
      have c3 := Nat.or_lt_two_pow c2 (T (b3 % 256) 14 (by norm_num))
      have c4 := Nat.or_lt_two_pow c3 (T (b4 % 256) 21 (by norm_num))
      have c5 := Nat.or_lt_two_pow c4 (T (b5 % 256) 28 (by norm_num))
      have c6 := Nat.or_lt_two_pow c5 (T (b6 % 256) 35 (by norm_num))
      have c7 := Nat.or_lt_two_pow c6 (T (b7 % 256) 42 (by norm_num))
      omega
    rcases s7 with _ | ⟨b8, s8⟩
    · simp [read_vlong_ex, read_byte, h1, h2, h3, h4, h5, h6, h7] at h
    by_cases h8 : b8 % 256 < 128
    · exfalso
      simp [read_vlong_ex, read_byte, h1, h2, h3, h4, h5, h6, h7, h8] at h
      have c1 : b1 % 256 &&& 127 < 2 ^ 63 := by rw [and_mask_127]; omega
      have c2 := Nat.or_lt_two_pow c1 (T (b2 % 256) 7 (by norm_num))
      have c3 := Nat.or_lt_two_pow c2 (T (b3 % 256) 14 (by norm_num))
      have c4 := Nat.or_lt_two_pow c3 (T (b4 % 256) 21 (by norm_num))
      have c5 := Nat.or_lt_two_pow c4 (T (b5 % 256) 28 (by norm_num))
      have c6 := Nat.or_lt_two_pow c5 (T (b6 % 256) 35 (by norm_num))
      have c7 := Nat.or_lt_two_pow c6 (T (b7 % 256) 42 (by norm_num))
      have c8 := Nat.or_lt_two_pow c7 (T (b8 % 256) 49 (by norm_num))
      omega
    rcases s8 with _ | ⟨b9, s9⟩
    · simp [read_vlong_ex, read_byte, h1, h2, h3, h4, h5, h6, h7, h8] at h
    by_cases h9 : b9 % 256 < 128
    · exfalso
      simp [read_vlong_ex, read_byte, h1, h2, h3, h4, h5, h6, h7, h8, h9] at h
      have c1 : b1 % 256 &&& 127 < 2 ^ 63 := by rw [and_mask_127]; omega
      have c2 := Nat.or_lt_two_pow c1 (T (b2 % 256) 7 (by norm_num))
      have c3 := Nat.or_lt_two_pow c2 (T (b3 % 256) 14 (by norm_num))
      have c4 := Nat.or_lt_two_pow c3 (T (b4 % 256) 21 (by norm_num))
      have c5 := Nat.or_lt_two_pow c4 (T (b5 % 256) 28 (by norm_num))
      have c6 := Nat.or_lt_two_pow c5 (T (b6 % 256) 35 (by norm_num))
      have c7 := Nat.or_lt_two_pow c6 (T (b7 % 256) 42 (by norm_num))
      have c8 := Nat.or_lt_two_pow c7 (T (b8 % 256) 49 (by norm_num))
      have c9 := Nat.or_lt_two_pow c8 (T (b9 % 256) 56 (by norm_num))
      omega
    rcases s9 with _ | ⟨b10, s10⟩
    · simp [read_vlong_ex, read_byte, h1, h2, h3, h4, h5, h6, h7, h8, h9] at h
    by_cases h10 : b10 % 256 = 0 ∨ b10 % 256 = 1
    · simp only [read_vlong_ex, read_byte] at h
      simp [h1, h2, h3, h4, h5, h6, h7, h8, h9, h10] at h
      rcases h10 with h0 | h1
      · exfalso
        rw [h0] at h
        simp at h
        have c1 : b1 % 256 &&& 127 < 2 ^ 63 := by rw [and_mask_127]; omega
        have c2 := Nat.or_lt_two_pow c1 (T (b2 % 256) 7 (by norm_num))
        have c3 := Nat.or_lt_two_pow c2 (T (b3 % 256) 14 (by norm_num))
        have c4 := Nat.or_lt_two_pow c3 (T (b4 % 256) 21 (by norm_num))
        have c5 := Nat.or_lt_two_pow c4 (T (b5 % 256) 28 (by norm_num))
        have c6 := Nat.or_lt_two_pow c5 (T (b6 % 256) 35 (by norm_num))
        have c7 := Nat.or_lt_two_pow c6 (T (b7 % 256) 42 (by norm_num))
        have c8 := Nat.or_lt_two_pow c7 (T (b8 % 256) 49 (by norm_num))
        have c9 := Nat.or_lt_two_pow c8 (T (b9 % 256) 56 (by norm_num))
        omega
      · refine ⟨by simp, ?_, ?_⟩
        · simpa using h1
        · simp [← h.2]
    · simp [read_vlong_ex, read_byte, h1, h2, h3, h4, h5, h6, h7, h8, h9, h10] at h

/-- Witness for C10: a concrete 1-byte unsigned decode and a concrete
10-byte negative decode. -/
theorem C10_witness :
    (5 : Nat) < 2 ^ 63 ∧
    (10 ≤ ([0x80, 0x80, 0x80, 0x80, 0x80, 0x80, 0x80, 0x80, 0x80, 0x01] : List Nat).length ∧
     ([0x80, 0x80, 0x80, 0x80, 0x80, 0x80, 0x80, 0x80, 0x80, 0x01] : List Nat).getD 9 0 % 256 = 1 ∧
     ([] : List Nat) = ([0x80, 0x80, 0x80, 0x80, 0x80, 0x80, 0x80, 0x80, 0x80, 0x01] : List Nat).drop 10) :=
  ⟨C10_read_vlong_nonneg.1 [0x05] 5 [] (by decide),
   C10_read_vlong_nonneg.2 [0x80, 0x80, 0x80, 0x80, 0x80, 0x80, 0x80, 0x80, 0x80, 0x01]
     (2 ^ 63) [] (by decide) (by norm_num)⟩

/-! Round-trip lemmas for the variable-length encodings -/

theorem and240_of_lt {x : Nat} (h : x < 16) : x &&& 240 = 0 := by
  interval_cases x <;> decide

/-- Xor with the all-ones pattern of width `w` is complement. -/
theorem xor_allones {w x : Nat} (h : x < 2 ^ w) : x ^^^ (2 ^ w - 1) = 2 ^ w - 1 - x := by
  induction w generalizing x with
  | zero =>
    interval_cases x
    decide
  | succ w ih =>
    have hp : 2 ^ (w + 1) = 2 * 2 ^ w := by rw [Nat.pow_succ]; ring
    have hx2 : x / 2 < 2 ^ w := by omega
    have key := ih hx2
    have hdiv : (x ^^^ (2 ^ (w + 1) - 1)) / 2 = x / 2 ^^^ (2 ^ w - 1) := by
      rw [Nat.xor_div_two]
      congr 1
      omega
    have hm : (2 ^ (w + 1) - 1) % 2 = 1 := by omega
    have hmod : (x ^^^ (2 ^ (w + 1) - 1)) % 2 = 1 - x % 2 := by
      have hiff := @Nat.xor_mod_two_eq_one x (2 ^ (w + 1) - 1)
      rcases Nat.mod_two_eq_zero_or_one x with h0 | h1
      · rw [h0]
        have h2 : (x ^^^ (2 ^ (w + 1) - 1)) % 2 = 1 := hiff.mpr (by rw [h0, hm]; simp)
        omega
      · rw [h1]
        have hne : (x ^^^ (2 ^ (w + 1) - 1)) % 2 ≠ 1 :=
          fun hc => (hiff.mp hc) (by rw [h1, hm])
        omega
    have hre : x ^^^ (2 ^ (w + 1) - 1)
        = 2 * ((x ^^^ (2 ^ (w + 1) - 1)) / 2) + (x ^^^ (2 ^ (w + 1) - 1)) % 2 := by omega
    rw [hre, hdiv, key, hmod]
    omega

/-- The embedded `read_vint` inverts the base-128 writer on every 32-bit value. -/
theorem vint_roundtrip (v : Nat) (hv : v < 2 ^ 32) (rest : List Nat) :
    read_vint (write_varint v ++ rest) = .ok (v, rest) := by
  rcases Nat.lt_or_ge v 128 with h1 | h1
  · rw [write_varint_small (by omega)]
    simp only [List.cons_append, List.nil_append]
    simp only [read_vint, read_byte, show v % 256 = v by omega]
    rw [if_pos (by omega)]
  rcases Nat.lt_or_ge v (2 ^ 14) with h2 | h2
  · rw [write_varint_big (by omega), write_varint_small (by omega)]
    simp only [List.cons_append, List.nil_append]
    simp only [read_vint, read_byte, show (v % 128 + 128) % 256 = v % 128 + 128 by omega,
      show v / 128 % 256 = v / 128 by omega]
    have hn1 : ¬ (v % 128 + 128 < 128) := by omega
    rw [if_neg hn1, if_pos (show v / 128 < 128 by omega)]
    simp only [and_mask_127]
    rw [lor_acc 7 (v / 128 % 128) (by omega)]
    congr 1
    congr 1
    omega
  rcases Nat.lt_or_ge v (2 ^ 21) with h3 | h3
  · rw [write_varint_big (by omega), write_varint_big (by omega), write_varint_small (by omega)]
    simp only [List.cons_append, List.nil_append]
    simp only [read_vint, read_byte, show (v % 128 + 128) % 256 = v % 128 + 128 by omega,
      show (v / 128 % 128 + 128) % 256 = v / 128 % 128 + 128 by omega,
      show v / 128 / 128 % 256 = v / 128 / 128 by omega]
    have hn1 : ¬ (v % 128 + 128 < 128) := by omega
    have hn2 : ¬ (v / 128 % 128 + 128 < 128) := by omega
    rw [if_neg hn1, if_neg hn2, if_pos (show v / 128 / 128 < 128 by omega)]
    simp only [and_mask_127]
    rw [lor_acc 7 ((v / 128 % 128 + 128) % 128) (by omega),
      lor_acc 14 (v / 128 / 128 % 128) (by omega)]
    congr 1
    congr 1
    omega
  rcases Nat.lt_or_ge v (2 ^ 28) with h4 | h4
  · rw [write_varint_big (by omega), write_varint_big (by omega), write_varint_big (by omega), write_varint_small (by omega)]
    simp only [List.cons_append, List.nil_append]
    simp only [read_vint, read_byte, show (v % 128 + 128) % 256 = v % 128 + 128 by omega,
      show (v / 128 % 128 + 128) % 256 = v / 128 % 128 + 128 by omega,
      show (v / 128 / 128 % 128 + 128) % 256 = v / 128 / 128 % 128 + 128 by omega,
      show v / 128 / 128 / 128 % 256 = v / 128 / 128 / 128 by omega]
    have hn1 : ¬ (v % 128 + 128 < 128) := by omega
    have hn2 : ¬ (v / 128 % 128 + 128 < 128) := by omega
    have hn3 : ¬ (v / 128 / 128 % 128 + 128 < 128) := by omega
    rw [if_neg hn1, if_neg hn2, if_neg hn3, if_pos (show v / 128 / 128 / 128 < 128 by omega)]
    simp only [and_mask_127]
    rw [lor_acc 7 ((v / 128 % 128 + 128) % 128) (by omega),
      lor_acc 14 ((v / 128 / 128 % 128 + 128) % 128) (by omega),
      lor_acc 21 (v / 128 / 128 / 128 % 128) (by omega)]
    congr 1
    congr 1
    omega
  rw [write_varint_big (by omega), write_varint_big (by omega), write_varint_big (by omega), write_varint_big (by omega), write_varint_small (by omega)]
  simp only [List.cons_append, List.nil_append]
  simp only [read_vint, read_byte, show (v % 128 + 128) % 256 = v % 128 + 128 by omega,
    show (v / 128 % 128 + 128) % 256 = v / 128 % 128 + 128 by omega,
    show (v / 128 / 128 % 128 + 128) % 256 = v / 128 / 128 % 128 + 128 by omega,
    show (v / 128 / 128 / 128 % 128 + 128) % 256 = v / 128 / 128 / 128 % 128 + 128 by omega,
    show v / 128 / 128 / 128 / 128 % 256 = v / 128 / 128 / 128 / 128 by omega]
  have hn1 : ¬ (v % 128 + 128 < 128) := by omega
  have hn2 : ¬ (v / 128 % 128 + 128 < 128) := by omega
  have hn3 : ¬ (v / 128 / 128 % 128 + 128 < 128) := by omega
  have hn4 : ¬ (v / 128 / 128 / 128 % 128 + 128 < 128) := by omega
  rw [if_neg hn1, if_neg hn2, if_neg hn3, if_neg hn4]
  rw [if_neg (show ¬ (v / 128 / 128 / 128 / 128 &&& 240 ≠ 0) by simp [and240_of_lt (show v / 128 / 128 / 128 / 128 < 16 by omega)])]
  simp only [and_mask_127, and_mask_15]
  rw [lor_acc 7 ((v / 128 % 128 + 128) % 128) (by omega),
    lor_acc 14 ((v / 128 / 128 % 128 + 128) % 128) (by omega),
    lor_acc 21 ((v / 128 / 128 / 128 % 128 + 128) % 128) (by omega),
    lor_acc 28 (v / 128 / 128 / 128 / 128 % 16) (by omega)]
  congr 1
  congr 1
  omega

/-- The embedded `read_vlong_ex true` inverts the base-128 writer on every 64-bit value. -/
theorem vlong_roundtrip (v : Nat) (hv : v < 2 ^ 64) (rest : List Nat) :
    read_vlong_ex true (write_varint v ++ rest) = .ok (v, rest) := by
  rcases Nat.lt_or_ge v 128 with h1 | h1
  · rw [write_varint_small (by omega)]
    simp only [List.cons_append, List.nil_append]
    simp only [read_vlong_ex, read_byte, show v % 256 = v by omega]
    rw [if_pos (by omega)]
  rcases Nat.lt_or_ge v (2 ^ 14) with h2 | h2
  · rw [write_varint_big (by omega), write_varint_small (by omega)]
    simp only [List.cons_append, List.nil_append]
    simp only [read_vlong_ex, read_byte, show (v % 128 + 128) % 256 = v % 128 + 128 by omega,
      show v / 128 % 256 = v / 128 by omega]
    have hn1 : ¬ (v % 128 + 128 < 128) := by omega
    rw [if_neg hn1, if_pos (show v / 128 < 128 by omega)]
    simp only [and_mask_127]
    rw [lor_acc 7 (v / 128 % 128) (by omega)]
    congr 1
    congr 1
    omega
  rcases Nat.lt_or_ge v (2 ^ 21) with h3 | h3
  · rw [write_varint_big (by omega), write_varint_big (by omega), write_varint_small (by omega)]
    simp only [List.cons_append, List.nil_append]
    simp only [read_vlong_ex, read_byte, show (v % 128 + 128) % 256 = v % 128 + 128 by omega,
      show (v / 128 % 128 + 128) % 256 = v / 128 % 128 + 128 by omega,
      show v / 128 / 128 % 256 = v / 128 / 128 by omega]
    have hn1 : ¬ (v % 128 + 128 < 128) := by omega
    have hn2 : ¬ (v / 128 % 128 + 128 < 128) := by omega
    rw [if_neg hn1, if_neg hn2, if_pos (show v / 128 / 128 < 128 by omega)]
    simp only [and_mask_127]
    rw [lor_acc 7 ((v / 128 % 128 + 128) % 128) (by omega),
      lor_acc 14 (v / 128 / 128 % 128) (by omega)]
    congr 1
    congr 1
    omega
  rcases Nat.lt_or_ge v (2 ^ 28) with h4 | h4
  · rw [write_varint_big (by omega), write_varint_big (by omega), write_varint_big (by omega), write_varint_small (by omega)]
    simp only [List.cons_append, List.nil_append]
    simp only [read_vlong_ex, read_byte, show (v % 128 + 128) % 256 = v % 128 + 128 by omega,
      show (v / 128 % 128 + 128) % 256 = v / 128 % 128 + 128 by omega,
      show (v / 128 / 128 % 128 + 128) % 256 = v / 128 / 128 % 128 + 128 by omega,
      show v / 128 / 128 / 128 % 256 = v / 128 / 128 / 128 by omega]
    have hn1 : ¬ (v % 128 + 128 < 128) := by omega
    have hn2 : ¬ (v / 128 % 128 + 128 < 128) := by omega
    have hn3 : ¬ (v / 128 / 128 % 128 + 128 < 128) := by omega
    rw [if_neg hn1, if_neg hn2, if_neg hn3, if_pos (show v / 128 / 128 / 128 < 128 by omega)]
    simp only [and_mask_127]
    rw [lor_acc 7 ((v / 128 % 128 + 128) % 128) (by omega),
      lor_acc 14 ((v / 128 / 128 % 128 + 128) % 128) (by omega),
      lor_acc 21 (v / 128 / 128 / 128 % 128) (by omega)]
    congr 1
    congr 1
    omega
  rcases Nat.lt_or_ge v (2 ^ 35) with h5 | h5
  · rw [write_varint_big (by omega), write_varint_big (by omega), write_varint_big (by omega), write_varint_big (by omega), write_varint_small (by omega)]
    simp only [List.cons_append, List.nil_append]
    simp only [read_vlong_ex, read_byte, show (v % 128 + 128) % 256 = v % 128 + 128 by omega,
      show (v / 128 % 128 + 128) % 256 = v / 128 % 128 + 128 by omega,
      show (v / 128 / 128 % 128 + 128) % 256 = v / 128 / 128 % 128 + 128 by omega,
      show (v / 128 / 128 / 128 % 128 + 128) % 256 = v / 128 / 128 / 128 % 128 + 128 by omega,
      show v / 128 / 128 / 128 / 128 % 256 = v / 128 / 128 / 128 / 128 by omega]
    have hn1 : ¬ (v % 128 + 128 < 128) := by omega
    have hn2 : ¬ (v / 128 % 128 + 128 < 128) := by omega
    have hn3 : ¬ (v / 128 / 128 % 128 + 128 < 128) := by omega
    have hn4 : ¬ (v / 128 / 128 / 128 % 128 + 128 < 128) := by omega
    rw [if_neg hn1, if_neg hn2, if_neg hn3, if_neg hn4, if_pos (show v / 128 / 128 / 128 / 128 < 128 by omega)]
    simp only [and_mask_127]
    rw [lor_acc 7 ((v / 128 % 128 + 128) % 128) (by omega),
      lor_acc 14 ((v / 128 / 128 % 128 + 128) % 128) (by omega),
      lor_acc 21 ((v / 128 / 128 / 128 % 128 + 128) % 128) (by omega),
      lor_acc 28 (v / 128 / 128 / 128 / 128 % 128) (by omega)]
    congr 1
    congr 1
    omega
  rcases Nat.lt_or_ge v (2 ^ 42) with h6 | h6
  · rw [write_varint_big (by omega), write_varint_big (by omega), write_varint_big (by omega), write_varint_big (by omega), write_varint_big (by omega), write_varint_small (by omega)]
    simp only [List.cons_append, List.nil_append]
    simp only [read_vlong_ex, read_byte, show (v % 128 + 128) % 256 = v % 128 + 128 by omega,
      show (v / 128 % 128 + 128) % 256 = v / 128 % 128 + 128 by omega,
      show (v / 128 / 128 % 128 + 128) % 256 = v / 128 / 128 % 128 + 128 by omega,
      show (v / 128 / 128 / 128 % 128 + 128) % 256 = v / 128 / 128 / 128 % 128 + 128 by omega,
      show (v / 128 / 128 / 128 / 128 % 128 + 128) % 256 = v / 128 / 128 / 128 / 128 % 128 + 128 by omega,
      show v / 128 / 128 / 128 / 128 / 128 % 256 = v / 128 / 128 / 128 / 128 / 128 by omega]
    have hn1 : ¬ (v % 128 + 128 < 128) := by omega
    have hn2 : ¬ (v / 128 % 128 + 128 < 128) := by omega
    have hn3 : ¬ (v / 128 / 128 % 128 + 128 < 128) := by omega
    have hn4 : ¬ (v / 128 / 128 / 128 % 128 + 128 < 128) := by omega
    have hn5 : ¬ (v / 128 / 128 / 128 / 128 % 128 + 128 < 128) := by omega
    rw [if_neg hn1, if_neg hn2, if_neg hn3, if_neg hn4, if_neg hn5, if_pos (show v / 128 / 128 / 128 / 128 / 128 < 128 by omega)]
    simp only [and_mask_127]
    rw [lor_acc 7 ((v / 128 % 128 + 128) % 128) (by omega),
      lor_acc 14 ((v / 128 / 128 % 128 + 128) % 128) (by omega),
      lor_acc 21 ((v / 128 / 128 / 128 % 128 + 128) % 128) (by omega),
      lor_acc 28 ((v / 128 / 128 / 128 / 128 % 128 + 128) % 128) (by omega),
      lor_acc 35 (v / 128 / 128 / 128 / 128 / 128 % 128) (by omega)]
    congr 1
    congr 1
    omega
  rcases Nat.lt_or_ge v (2 ^ 49) with h7 | h7
  · rw [write_varint_big (by omega), write_varint_big (by omega), write_varint_big (by omega), write_varint_big (by omega), write_varint_big (by omega), write_varint_big (by omega), write_varint_small (by omega)]
    simp only [List.cons_append, List.nil_append]
    simp only [read_vlong_ex, read_byte, show (v % 128 + 128) % 256 = v % 128 + 128 by omega,
      show (v / 128 % 128 + 128) % 256 = v / 128 % 128 + 128 by omega,
      show (v / 128 / 128 % 128 + 128) % 256 = v / 128 / 128 % 128 + 128 by omega,
      show (v / 128 / 128 / 128 % 128 + 128) % 256 = v / 128 / 128 / 128 % 128 + 128 by omega,
      show (v / 128 / 128 / 128 / 128 % 128 + 128) % 256 = v / 128 / 128 / 128 / 128 % 128 + 128 by omega,
      show (v / 128 / 128 / 128 / 128 / 128 % 128 + 128) % 256 = v / 128 / 128 / 128 / 128 / 128 % 128 + 128 by omega,
      show v / 128 / 128 / 128 / 128 / 128 / 128 % 256 = v / 128 / 128 / 128 / 128 / 128 / 128 by omega]
    have hn1 : ¬ (v % 128 + 128 < 128) := by omega
    have hn2 : ¬ (v / 128 % 128 + 128 < 128) := by omega
    have hn3 : ¬ (v / 128 / 128 % 128 + 128 < 128) := by omega
    have hn4 : ¬ (v / 128 / 128 / 128 % 128 + 128 < 128) := by omega
    have hn5 : ¬ (v / 128 / 128 / 128 / 128 % 128 + 128 < 128) := by omega
    have hn6 : ¬ (v / 128 / 128 / 128 / 128 / 128 % 128 + 128 < 128) := by omega
    rw [if_neg hn1, if_neg hn2, if_neg hn3, if_neg hn4, if_neg hn5, if_neg hn6, if_pos (show v / 128 / 128 / 128 / 128 / 128 / 128 < 128 by omega)]
    simp only [and_mask_127]
    rw [lor_acc 7 ((v / 128 % 128 + 128) % 128) (by omega),
      lor_acc 14 ((v / 128 / 128 % 128 + 128) % 128) (by omega),
      lor_acc 21 ((v / 128 / 128 / 128 % 128 + 128) % 128) (by omega),
      lor_acc 28 ((v / 128 / 128 / 128 / 128 % 128 + 128) % 128) (by omega),
      lor_acc 35 ((v / 128 / 128 / 128 / 128 / 128 % 128 + 128) % 128) (by omega),
      lor_acc 42 (v / 128 / 128 / 128 / 128 / 128 / 128 % 128) (by omega)]
    congr 1
    congr 1
    omega
  rcases Nat.lt_or_ge v (2 ^ 56) with h8 | h8
  · rw [write_varint_big (by omega), write_varint_big (by omega), write_varint_big (by omega), write_varint_big (by omega), write_varint_big (by omega), write_varint_big (by omega), write_varint_big (by omega), write_varint_small (by omega)]
    simp only [List.cons_append, List.nil_append]
    simp only [read_vlong_ex, read_byte, show (v % 128 + 128) % 256 = v % 128 + 128 by omega,
      show (v / 128 % 128 + 128) % 256 = v / 128 % 128 + 128 by omega,
      show (v / 128 / 128 % 128 + 128) % 256 = v / 128 / 128 % 128 + 128 by omega,
      show (v / 128 / 128 / 128 % 128 + 128) % 256 = v / 128 / 128 / 128 % 128 + 128 by omega,
      show (v / 128 / 128 / 128 / 128 % 128 + 128) % 256 = v / 128 / 128 / 128 / 128 % 128 + 128 by omega,
      show (v / 128 / 128 / 128 / 128 / 128 % 128 + 128) % 256 = v / 128 / 128 / 128 / 128 / 128 % 128 + 128 by omega,
      show (v / 128 / 128 / 128 / 128 / 128 / 128 % 128 + 128) % 256 = v / 128 / 128 / 128 / 128 / 128 / 128 % 128 + 128 by omega,
      show v / 128 / 128 / 128 / 128 / 128 / 128 / 128 % 256 = v / 128 / 128 / 128 / 128 / 128 / 128 / 128 by omega]
    have hn1 : ¬ (v % 128 + 128 < 128) := by omega
    have hn2 : ¬ (v / 128 % 128 + 128 < 128) := by omega
    have hn3 : ¬ (v / 128 / 128 % 128 + 128 < 128) := by omega
    have hn4 : ¬ (v / 128 / 128 / 128 % 128 + 128 < 128) := by omega
    have hn5 : ¬ (v / 128 / 128 / 128 / 128 % 128 + 128 < 128) := by omega
    have hn6 : ¬ (v / 128 / 128 / 128 / 128 / 128 % 128 + 128 < 128) := by omega
    have hn7 : ¬ (v / 128 / 128 / 128 / 128 / 128 / 128 % 128 + 128 < 128) := by omega
    rw [if_neg hn1, if_neg hn2, if_neg hn3, if_neg hn4, if_neg hn5, if_neg hn6, if_neg hn7, if_pos (show v / 128 / 128 / 128 / 128 / 128 / 128 / 128 < 128 by omega)]
    simp only [and_mask_127]
    rw [lor_acc 7 ((v / 128 % 128 + 128) % 128) (by omega),
      lor_acc 14 ((v / 128 / 128 % 128 + 128) % 128) (by omega),
      lor_acc 21 ((v / 128 / 128 / 128 % 128 + 128) % 128) (by omega),
      lor_acc 28 ((v / 128 / 128 / 128 / 128 % 128 + 128) % 128) (by omega),
      lor_acc 35 ((v / 128 / 128 / 128 / 128 / 128 % 128 + 128) % 128) (by omega),
      lor_acc 42 ((v / 128 / 128 / 128 / 128 / 128 / 128 % 128 + 128) % 128) (by omega),
      lor_acc 49 (v / 128 / 128 / 128 / 128 / 128 / 128 / 128 % 128) (by omega)]
    congr 1
    congr 1
    omega
  rcases Nat.lt_or_ge v (2 ^ 63) with h9 | h9
  · rw [write_varint_big (by omega), write_varint_big (by omega), write_varint_big (by omega), write_varint_big (by omega), write_varint_big (by omega), write_varint_big (by omega), write_varint_big (by omega), write_varint_big (by omega), write_varint_small (by omega)]
    simp only [List.cons_append, List.nil_append]
    simp only [read_vlong_ex, read_byte, show (v % 128 + 128) % 256 = v % 128 + 128 by omega,
      show (v / 128 % 128 + 128) % 256 = v / 128 % 128 + 128 by omega,
      show (v / 128 / 128 % 128 + 128) % 256 = v / 128 / 128 % 128 + 128 by omega,
      show (v / 128 / 128 / 128 % 128 + 128) % 256 = v / 128 / 128 / 128 % 128 + 128 by omega,
      show (v / 128 / 128 / 128 / 128 % 128 + 128) % 256 = v / 128 / 128 / 128 / 128 % 128 + 128 by omega,
      show (v / 128 / 128 / 128 / 128 / 128 % 128 + 128) % 256 = v / 128 / 128 / 128 / 128 / 128 % 128 + 128 by omega,
      show (v / 128 / 128 / 128 / 128 / 128 / 128 % 128 + 128) % 256 = v / 128 / 128 / 128 / 128 / 128 / 128 % 128 + 128 by omega,
      show (v / 128 / 128 / 128 / 128 / 128 / 128 / 128 % 128 + 128) % 256 = v / 128 / 128 / 128 / 128 / 128 / 128 / 128 % 128 + 128 by omega,
      show v / 128 / 128 / 128 / 128 / 128 / 128 / 128 / 128 % 256 = v / 128 / 128 / 128 / 128 / 128 / 128 / 128 / 128 by omega]
    have hn1 : ¬ (v % 128 + 128 < 128) := by omega
    have hn2 : ¬ (v / 128 % 128 + 128 < 128) := by omega
    have hn3 : ¬ (v / 128 / 128 % 128 + 128 < 128) := by omega
    have hn4 : ¬ (v / 128 / 128 / 128 % 128 + 128 < 128) := by omega
    have hn5 : ¬ (v / 128 / 128 / 128 / 128 % 128 + 128 < 128) := by omega
    have hn6 : ¬ (v / 128 / 128 / 128 / 128 / 128 % 128 + 128 < 128) := by omega
    have hn7 : ¬ (v / 128 / 128 / 128 / 128 / 128 / 128 % 128 + 128 < 128) := by omega
    have hn8 : ¬ (v / 128 / 128 / 128 / 128 / 128 / 128 / 128 % 128 + 128 < 128) := by omega
    rw [if_neg hn1, if_neg hn2, if_neg hn3, if_neg hn4, if_neg hn5, if_neg hn6, if_neg hn7, if_neg hn8, if_pos (show v / 128 / 128 / 128 / 128 / 128 / 128 / 128 / 128 < 128 by omega)]
    simp only [and_mask_127]
    rw [lor_acc 7 ((v / 128 % 128 + 128) % 128) (by omega),
      lor_acc 14 ((v / 128 / 128 % 128 + 128) % 128) (by omega),
      lor_acc 21 ((v / 128 / 128 / 128 % 128 + 128) % 128) (by omega),
      lor_acc 28 ((v / 128 / 128 / 128 / 128 % 128 + 128) % 128) (by omega),
      lor_acc 35 ((v / 128 / 128 / 128 / 128 / 128 % 128 + 128) % 128) (by omega),
      lor_acc 42 ((v / 128 / 128 / 128 / 128 / 128 / 128 % 128 + 128) % 128) (by omega),
      lor_acc 49 ((v / 128 / 128 / 128 / 128 / 128 / 128 / 128 % 128 + 128) % 128) (by omega),
      lor_acc 56 (v / 128 / 128 / 128 / 128 / 128 / 128 / 128 / 128 % 128) (by omega)]
    congr 1
    congr 1
    omega
  rcases Nat.lt_or_ge v (2 ^ 63) with h10 | h10
  · rw [write_varint_big (by omega), write_varint_big (by omega), write_varint_big (by omega), write_varint_big (by omega), write_varint_big (by omega), write_varint_big (by omega), write_varint_big (by omega), write_varint_big (by omega), write_varint_small (by omega)]
    simp only [List.cons_append, List.nil_append]
    simp only [read_vlong_ex, read_byte, show (v % 128 + 128) % 256 = v % 128 + 128 by omega,
      show (v / 128 % 128 + 128) % 256 = v / 128 % 128 + 128 by omega,
      show (v / 128 / 128 % 128 + 128) % 256 = v / 128 / 128 % 128 + 128 by omega,
      show (v / 128 / 128 / 128 % 128 + 128) % 256 = v / 128 / 128 / 128 % 128 + 128 by omega,
      show (v / 128 / 128 / 128 / 128 % 128 + 128) % 256 = v / 128 / 128 / 128 / 128 % 128 + 128 by omega,
      show (v / 128 / 128 / 128 / 128 / 128 % 128 + 128) % 256 = v / 128 / 128 / 128 / 128 / 128 % 128 + 128 by omega,
      show (v / 128 / 128 / 128 / 128 / 128 / 128 % 128 + 128) % 256 = v / 128 / 128 / 128 / 128 / 128 / 128 % 128 + 128 by omega,
      show (v / 128 / 128 / 128 / 128 / 128 / 128 / 128 % 128 + 128) % 256 = v / 128 / 128 / 128 / 128 / 128 / 128 / 128 % 128 + 128 by omega,
      show v / 128 / 128 / 128 / 128 / 128 / 128 / 128 / 128 % 256 = v / 128 / 128 / 128 / 128 / 128 / 128 / 128 / 128 by omega]
    have hn1 : ¬ (v % 128 + 128 < 128) := by omega
    have hn2 : ¬ (v / 128 % 128 + 128 < 128) := by omega
    have hn3 : ¬ (v / 128 / 128 % 128 + 128 < 128) := by omega
    have hn4 : ¬ (v / 128 / 128 / 128 % 128 + 128 < 128) := by omega
    have hn5 : ¬ (v / 128 / 128 / 128 / 128 % 128 + 128 < 128) := by omega
    have hn6 : ¬ (v / 128 / 128 / 128 / 128 / 128 % 128 + 128 < 128) := by omega
    have hn7 : ¬ (v / 128 / 128 / 128 / 128 / 128 / 128 % 128 + 128 < 128) := by omega
    have hn8 : ¬ (v / 128 / 128 / 128 / 128 / 128 / 128 / 128 % 128 + 128 < 128) := by omega
    rw [if_neg hn1, if_neg hn2, if_neg hn3, if_neg hn4, if_neg hn5, if_neg hn6, if_neg hn7, if_neg hn8, if_pos (show v / 128 / 128 / 128 / 128 / 128 / 128 / 128 / 128 < 128 by omega)]
    simp only [and_mask_127]
    rw [lor_acc 7 ((v / 128 % 128 + 128) % 128) (by omega),
      lor_acc 14 ((v / 128 / 128 % 128 + 128) % 128) (by omega),
      lor_acc 21 ((v / 128 / 128 / 128 % 128 + 128) % 128) (by omega),
      lor_acc 28 ((v / 128 / 128 / 128 / 128 % 128 + 128) % 128) (by omega),
      lor_acc 35 ((v / 128 / 128 / 128 / 128 / 128 % 128 + 128) % 128) (by omega),
      lor_acc 42 ((v / 128 / 128 / 128 / 128 / 128 / 128 % 128 + 128) % 128) (by omega),
      lor_acc 49 ((v / 128 / 128 / 128 / 128 / 128 / 128 / 128 % 128 + 128) % 128) (by omega),
      lor_acc 56 (v / 128 / 128 / 128 / 128 / 128 / 128 / 128 / 128 % 128) (by omega)]
    congr 1
    congr 1
    omega
  rw [write_varint_big (by omega), write_varint_big (by omega), write_varint_big (by omega), write_varint_big (by omega), write_varint_big (by omega), write_varint_big (by omega), write_varint_big (by omega), write_varint_big (by omega), write_varint_big (by omega), write_varint_small (by omega)]
  simp only [List.cons_append, List.nil_append]
  simp only [read_vlong_ex, read_byte, show (v % 128 + 128) % 256 = v % 128 + 128 by omega,
    show (v / 128 % 128 + 128) % 256 = v / 128 % 128 + 128 by omega,
    show (v / 128 / 128 % 128 + 128) % 256 = v / 128 / 128 % 128 + 128 by omega,
    show (v / 128 / 128 / 128 % 128 + 128) % 256 = v / 128 / 128 / 128 % 128 + 128 by omega,
    show (v / 128 / 128 / 128 / 128 % 128 + 128) % 256 = v / 128 / 128 / 128 / 128 % 128 + 128 by omega,
    show (v / 128 / 128 / 128 / 128 / 128 % 128 + 128) % 256 = v / 128 / 128 / 128 / 128 / 128 % 128 + 128 by omega,
    show (v / 128 / 128 / 128 / 128 / 128 / 128 % 128 + 128) % 256 = v / 128 / 128 / 128 / 128 / 128 / 128 % 128 + 128 by omega,
    show (v / 128 / 128 / 128 / 128 / 128 / 128 / 128 % 128 + 128) % 256 = v / 128 / 128 / 128 / 128 / 128 / 128 / 128 % 128 + 128 by omega,
    show (v / 128 / 128 / 128 / 128 / 128 / 128 / 128 / 128 % 128 + 128) % 256 = v / 128 / 128 / 128 / 128 / 128 / 128 / 128 / 128 % 128 + 128 by omega,
    show v / 128 / 128 / 128 / 128 / 128 / 128 / 128 / 128 / 128 % 256 = v / 128 / 128 / 128 / 128 / 128 / 128 / 128 / 128 / 128 by omega]
  have hn1 : ¬ (v % 128 + 128 < 128) := by omega
  have hn2 : ¬ (v / 128 % 128 + 128 < 128) := by omega
  have hn3 : ¬ (v / 128 / 128 % 128 + 128 < 128) := by omega
  have hn4 : ¬ (v / 128 / 128 / 128 % 128 + 128 < 128) := by omega
  have hn5 : ¬ (v / 128 / 128 / 128 / 128 % 128 + 128 < 128) := by omega
  have hn6 : ¬ (v / 128 / 128 / 128 / 128 / 128 % 128 + 128 < 128) := by omega
  have hn7 : ¬ (v / 128 / 128 / 128 / 128 / 128 / 128 % 128 + 128 < 128) := by omega
  have hn8 : ¬ (v / 128 / 128 / 128 / 128 / 128 / 128 / 128 % 128 + 128 < 128) := by omega
  have hn9 : ¬ (v / 128 / 128 / 128 / 128 / 128 / 128 / 128 / 128 % 128 + 128 < 128) := by omega
  rw [if_neg hn1, if_neg hn2, if_neg hn3, if_neg hn4, if_neg hn5, if_neg hn6, if_neg hn7, if_neg hn8, if_neg hn9, if_pos trivial]
  rw [if_pos (show v / 128 / 128 / 128 / 128 / 128 / 128 / 128 / 128 / 128 = 0 ∨ v / 128 / 128 / 128 / 128 / 128 / 128 / 128 / 128 / 128 = 1 by omega)]
  simp only [and_mask_127]
  rw [lor_acc 7 ((v / 128 % 128 + 128) % 128) (by omega),
    lor_acc 14 ((v / 128 / 128 % 128 + 128) % 128) (by omega),
    lor_acc 21 ((v / 128 / 128 / 128 % 128 + 128) % 128) (by omega),
    lor_acc 28 ((v / 128 / 128 / 128 / 128 % 128 + 128) % 128) (by omega),
    lor_acc 35 ((v / 128 / 128 / 128 / 128 / 128 % 128 + 128) % 128) (by omega),
    lor_acc 42 ((v / 128 / 128 / 128 / 128 / 128 / 128 % 128 + 128) % 128) (by omega),
    lor_acc 49 ((v / 128 / 128 / 128 / 128 / 128 / 128 / 128 % 128 + 128) % 128) (by omega),
    lor_acc 56 ((v / 128 / 128 / 128 / 128 / 128 / 128 / 128 / 128 % 128 + 128) % 128) (by omega),
    lor_acc 63 (v / 128 / 128 / 128 / 128 / 128 / 128 / 128 / 128 / 128 % 128) (by omega)]
  congr 1
  congr 1
  omega

/-- The zig-zag encodings fit their width and decode back to the twos
complement pattern of the original signed value (32-bit form). -/
theorem zigzag32_spec (n : Int) (hlo : -2 ^ 31 ≤ n) (hhi : n < 2 ^ 31) :
    zigzag_encode32 n < 2 ^ 32 ∧ zigzag_decode32 (zigzag_encode32 n) = pat32 n := by
  unfold zigzag_encode32 zigzag_decode32 pat32
  by_cases hn : 0 ≤ n
  · rw [if_pos hn]
    set m := (2 * n).toNat with hm
    have hm2 : (m : Int) = 2 * n := by omega
    have hmlt : m < 2 ^ 32 := by omega
    have hodd : m &&& 1 = m % 2 := Nat.and_one_is_mod m
    have hmod : m % 2 = 0 := by omega
    refine ⟨by omega, ?_⟩
    rw [hodd, hmod, Nat.sub_zero, Nat.mod_self, Nat.xor_zero, Nat.shiftRight_eq_div_pow]
    omega
  · rw [if_neg hn]
    set m := (-2 * n - 1).toNat with hm
    have hm2 : (m : Int) = -2 * n - 1 := by omega
    have hmlt : m < 2 ^ 32 := by omega
    have hodd : m &&& 1 = m % 2 := Nat.and_one_is_mod m
    have hmod : m % 2 = 1 := by omega
    refine ⟨by omega, ?_⟩
    rw [hodd, hmod, Nat.mod_eq_of_lt (show 2 ^ 32 - 1 < 2 ^ 32 by norm_num),
      Nat.shiftRight_eq_div_pow, xor_allones (show m / 2 ^ 1 < 2 ^ 32 by omega)]
    omega

/-- The zig-zag encodings fit their width and decode back to the twos
complement pattern of the original signed value (64-bit form). -/
theorem zigzag64_spec (n : Int) (hlo : -2 ^ 63 ≤ n) (hhi : n < 2 ^ 63) :
    zigzag_encode64 n < 2 ^ 64 ∧ zigzag_decode64 (zigzag_encode64 n) = pat64 n := by
  unfold zigzag_encode64 zigzag_decode64 pat64
  by_cases hn : 0 ≤ n
  · rw [if_pos hn]
    set m := (2 * n).toNat with hm
    have hm2 : (m : Int) = 2 * n := by omega
    have hmlt : m < 2 ^ 64 := by omega
    have hodd : m &&& 1 = m % 2 := Nat.and_one_is_mod m
    have hmod : m % 2 = 0 := by omega
    refine ⟨by omega, ?_⟩
    rw [hodd, hmod, Nat.sub_zero, Nat.mod_self, Nat.xor_zero, Nat.shiftRight_eq_div_pow]
    omega
  · rw [if_neg hn]
    set m := (-2 * n - 1).toNat with hm
    have hm2 : (m : Int) = -2 * n - 1 := by omega
    have hmlt : m < 2 ^ 64 := by omega
    have hodd : m &&& 1 = m % 2 := Nat.and_one_is_mod m
    have hmod : m % 2 = 1 := by omega
    refine ⟨by omega, ?_⟩
    rw [hodd, hmod, Nat.mod_eq_of_lt (show 2 ^ 64 - 1 < 2 ^ 64 by norm_num),
      Nat.shiftRight_eq_div_pow, xor_allones (show m / 2 ^ 1 < 2 ^ 64 by omega)]
    omega

/-! Claim C3 -/

/-- Claim C3: zig-zag round-trip.  For every i32 value `n` (given by its
signed value, result by its twos complement pattern), writing `zigzag(n)` as
a vint and decoding with `read_zint` yields `n`; for every i64 value `n`,
writing `zigzag(n)` as a vlong and decoding with `read_zlong`
(`negative_allowed = true`) yields `n`, where the stored value `v` maps to
`(v >>> 1) ^ -(v & 1)`. -/
theorem C3_zigzag_roundtrip :
    (∀ n : Int, -2 ^ 31 ≤ n → n < 2 ^ 31 →
      read_zint (write_varint (zigzag_encode32 n)) = .ok (pat32 n, [])) ∧
    (∀ n : Int, -2 ^ 63 ≤ n → n < 2 ^ 63 →
      read_zlong (write_varint (zigzag_encode64 n)) = .ok (pat64 n, [])) := by
  constructor
  · intro n hlo hhi
    obtain ⟨hlt, hdec⟩ := zigzag32_spec n hlo hhi
    have hrt := vint_roundtrip (zigzag_encode32 n) hlt []
    rw [List.append_nil] at hrt
    simp only [read_zint, hrt, hdec]
  · intro n hlo hhi
    obtain ⟨hlt, hdec⟩ := zigzag64_spec n hlo hhi
    have hrt := vlong_roundtrip (zigzag_encode64 n) hlt []
    rw [List.append_nil] at hrt
    simp only [read_zlong, hrt, hdec]

/-- Witness for C3: the extreme values i32::MIN and i64::MIN round-trip. -/
theorem C3_witness :
    read_zint (write_varint (zigzag_encode32 (-2147483648)))
      = .ok (pat32 (-2147483648), []) ∧
    read_zlong (write_varint (zigzag_encode64 (-9223372036854775808)))
      = .ok (pat64 (-9223372036854775808), []) :=
  ⟨C3_zigzag_roundtrip.1 (-2147483648) (by norm_num) (by norm_num),
   C3_zigzag_roundtrip.2 (-9223372036854775808) (by norm_num) (by norm_num)⟩

/-! Fixed bit set: embedding

Words of the backing `Vec<i64>` are 64-bit patterns (`Nat` below `2 ^ 64`).
Out-of-range raw indexing (undefined behaviour or a panic in the source) is
modelled totally with `List.getD`/`List.set`; every theorem below carries the
in-range preconditions of its claim, under which the model and the source
agree.  Source loops are expressed as structural recursion on an explicit
iteration count. -/

/-- Modelled from the spec: `core::search::NO_MORE_DOCS` (not among the
provided sources): "a reserved sentinel value, logically the maximum
representable value" of an i32 document id. -/
def NO_MORE_DOCS : Nat := 2147483647

/-- Bitwise not (`!`) of an i64 pattern. -/
def not64 (x : Nat) : Nat := x ^^^ (2 ^ 64 - 1)

/-- The embedded `i64::trailing_zeros`, by iterating over the 64 bits of the pattern. -/
def ctz_aux : Nat → Nat → Nat
  | 0, _ => 0
  | fuel + 1, p => if p % 2 = 1 then 0 else ctz_aux fuel (p / 2) + 1

/-- The embedded `i64::trailing_zeros` of a 64-bit pattern (64 on zero). -/
def trailing_zeros (p : Nat) : Nat := ctz_aux 64 p

/-- The embedded `i64::count_ones`, by iterating over the 64 bits of the pattern. -/
def pop_aux : Nat → Nat → Nat
  | 0, _ => 0
  | fuel + 1, p => p % 2 + pop_aux fuel (p / 2)

/-- The embedded `i64::count_ones` of a 64-bit pattern. -/
def count_ones (p : Nat) : Nat := pop_aux 64 p

/-- Modelled from the spec: `bit_util::pop_array` (from `core::util::bit_util`,
not among the provided sources): "population count (popcount) summed over
exactly the first `num_words` words" for offset 0 and length `num_words`. -/
def pop_array (bits : List Nat) (offset len : Nat) : Nat :=
  (((bits.drop offset).take len).map count_ones).sum

/-- The i32 read of a usize (`num_bits as i32`): truncate to 32 bits, then
interpret the pattern as signed. -/
def toInt32 (p : Nat) : Int :=
  if p % 2 ^ 32 < 2 ^ 31 then (p % 2 ^ 32 : Int) else (p % 2 ^ 32 : Int) - 2 ^ 32

/-- Wrapping i32 arithmetic: reduce an integer to the i32 value range
(release-mode overflow semantics). -/
def wrap32 (v : Int) : Int :=
  if v % 2 ^ 32 < 2 ^ 31 then v % 2 ^ 32 else v % 2 ^ 32 - 2 ^ 32

/-- The embedded `bits2words`: the number of 64-bit words needed for `num_bits` bits,
computed as in the source in i32 arithmetic: `(((num_bits - 1) >> 6) + 1)`
with an arithmetic right shift (`Int.fdiv` by 64), the result cast back to
usize (pattern modulo `2 ^ 64`). -/
def bits2words (num_bits : Nat) : Nat :=
  (((wrap32 (toInt32 num_bits - 1)).fdiv 64 + 1) % 2 ^ 64).toNat

/-- The embedded `Vec::resize(n, 0)`. -/
def resize (l : List Nat) (n : Nat) : List Nat :=
  if n ≤ l.length then l.take n else l ++ List.replicate (n - l.length) 0

/-- The embedded `FixedBitSet`: `bits` (the backing i64 words), `num_bits` (bits in use),
`num_words` (exact words needed for `num_bits`, at most `bits.length`). -/
structure FixedBitSet where
  bits : List Nat
  num_bits : Nat
  num_words : Nat
  deriving DecidableEq, Repr

/-- The embedded `FixedBitSet::new`. -/
def FixedBitSet.new (num_bits : Nat) : FixedBitSet :=
  { bits := List.replicate (bits2words num_bits) 0
    num_bits := num_bits
    num_words := bits2words num_bits }

/-- The embedded `FixedBitSet::verify_ghost_bits_clear`.  `num_bits.trailing_zeros() >= 6`
is `num_bits % 64 == 0`; the shift in `(-1i64) << num_bits` is masked modulo
64 (release semantics; the branch only runs when `num_bits % 64 != 0`). -/
def FixedBitSet.verify_ghost_bits_clear (f : FixedBitSet) : Bool :=
  if (f.bits.drop f.num_words).any (fun w => w != 0) then false
  else if f.num_bits % 64 == 0 then true
  else
    let mask := ((2 ^ 64 - 1) <<< (f.num_bits % 64)) % 2 ^ 64
    f.bits.getD (f.num_words - 1) 0 &&& mask == 0

/-- The embedded `FixedBitSet::copy_from`: adopt caller words, reject a too-small array
with IllegalArgument, and `assert!` (modelled as `assertionFailed`) that the
ghost bits are clear. -/
def FixedBitSet.copy_from (stored_bits : List Nat) (num_bits : Nat) :
    Except Err FixedBitSet :=
  let num_words := bits2words num_bits
  if num_words > stored_bits.length then .error .illegalArgument
  else
    let bits : FixedBitSet := ⟨stored_bits, num_bits, num_words⟩
    if bits.verify_ghost_bits_clear then .ok bits else .error .assertionFailed

/-- The embedded `FixedBitSet::ensure_capacity`. -/
def FixedBitSet.ensure_capacity (f : FixedBitSet) (num_bits : Nat) : FixedBitSet :=
  if num_bits ≥ f.num_bits then
    let num_words := bits2words num_bits
    if num_words ≥ f.bits.length then
      { bits := resize f.bits (num_words + 1)
        num_words := num_words + 1
        num_bits := (num_words + 1) <<< 6 }
    else f
  else f

/-- The embedded `ImmutableBits::get` for `FixedBitSet` (always `Ok` in the source). -/
def FixedBitSet.get (f : FixedBitSet) (index : Nat) : Bool :=
  f.bits.getD (index >>> 6) 0 &&& (1 <<< (index &&& 63)) != 0

/-- The embedded `ImmutableBits::len` for `FixedBitSet`. -/
def FixedBitSet.len (f : FixedBitSet) : Nat := f.num_bits

/-- The embedded `BitSet::set` for `FixedBitSet`. -/
def FixedBitSet.set (f : FixedBitSet) (index : Nat) : FixedBitSet :=
  let word_num := index >>> 6
  let mask := 1 <<< (index &&& 63)
  { f with bits := f.bits.set word_num (f.bits.getD word_num 0 ||| mask) }

/-- The embedded `FixedBitSet::clear` (single bit, i32 index; the source asserts
`index < num_bits`, and a negative index is excluded by the claimed
precondition `0 <= index`, so the index is a `Nat` here). -/
def FixedBitSet.clear (f : FixedBitSet) (index : Nat) : FixedBitSet :=
  let word_num := index >>> 6
  let mask := 1 <<< (index &&& 63)
  { f with bits := f.bits.set word_num (f.bits.getD word_num 0 &&& not64 mask) }

/-- The lower-boundary mask `!((-1i64) << (start_index & 0x3f))` of
`clear(start, end)` and `flip`. -/
def start_mask (start_index : Nat) : Nat :=
  not64 (((2 ^ 64 - 1) <<< (start_index &&& 63)) % 2 ^ 64)

/-- The upper-boundary mask `!((-1i64).unsigned_shift((64 - end_index) & 0x3f))`
of `clear(start, end)` and `flip`.  `unsigned_shift` (from
`core::util::bit_util`, modelled from the spec glossary) is the logical right
shift; the usize subtraction `64 - end_index` wraps modulo `2 ^ 64`. -/
def end_mask (end_index : Nat) : Nat :=
  not64 ((2 ^ 64 - 1) >>> (((64 + 2 ^ 64 - end_index % 2 ^ 64) % 2 ^ 64) &&& 63))

/-- The interior loop of `clear(start, end)`:
`for i in start_word + 1 .. end_word { bits[i] = 0 }`. -/
def zero_words : Nat → List Nat → Nat → List Nat
  | 0, l, _ => l
  | fuel + 1, l, i => zero_words fuel (l.set i 0) (i + 1)

/-- The interior loop of `flip`:
`for i in start_word + 1 .. end_word { bits[i] = !bits[i] }`. -/
def invert_words : Nat → List Nat → Nat → List Nat
  | 0, l, _ => l
  | fuel + 1, l, i => invert_words fuel (l.set i (not64 (l.getD i 0))) (i + 1)

/-- The embedded `BitSet::clear(start_index, end_index)` for `FixedBitSet` (range clear). -/
def FixedBitSet.clearRange (f : FixedBitSet) (start_index end_index : Nat) :
    FixedBitSet :=
  if end_index ≤ start_index then f else
  let start_word := start_index >>> 6
  let end_word := (end_index - 1) >>> 6
  let sm := start_mask start_index
  let em := end_mask end_index
  if start_word = end_word then
    { f with bits := f.bits.set start_word (f.bits.getD start_word 0 &&& (sm ||| em)) }
  else
    let b1 := f.bits.set start_word (f.bits.getD start_word 0 &&& sm)
    let b2 := zero_words (end_word - (start_word + 1)) b1 (start_word + 1)
    { f with bits := b2.set end_word (b2.getD end_word 0 &&& em) }

/-- The embedded `FixedBitSet::flip(start_index, end_index)`. -/
def FixedBitSet.flip (f : FixedBitSet) (start_index end_index : Nat) :
    FixedBitSet :=
  if end_index ≤ start_index then f else
  let start_word := start_index >>> 6
  let end_word := (end_index - 1) >>> 6
  let sm := start_mask start_index
  let em := end_mask end_index
  if start_word = end_word then
    { f with bits := f.bits.set start_word (f.bits.getD start_word 0 ^^^ (sm ||| em)) }
  else
    let b1 := f.bits.set start_word (f.bits.getD start_word 0 ^^^ sm)
    let b2 := invert_words (end_word - (start_word + 1)) b1 (start_word + 1)
    { f with bits := b2.set end_word (b2.getD end_word 0 ^^^ em) }

/-- The embedded `ImmutableBitSet::cardinality` for `FixedBitSet`:
`pop_array(&self.bits, 0, self.num_words)`. -/
def FixedBitSet.cardinality (f : FixedBitSet) : Nat :=
  pop_array f.bits 0 f.num_words

/-- Arithmetic (sign-propagating) right shift of an i64 pattern by `k < 64`
(the `>>` of the source on an `i64` word). -/
def asr64 (w k : Nat) : Nat :=
  if w < 2 ^ 63 then w >>> k
  else (w >>> k) ||| (((2 ^ 64 - 1) <<< (64 - k)) % 2 ^ 64)

/-- The scan loop of `next_set_bit`: `loop { i += 1; if i >= num_words break;
if bits[i] != 0 return (i << 6) + bits[i].trailing_zeros() }`, with the
iteration count (at most `num_words`) as explicit fuel. -/
def nsb_loop : Nat → List Nat → Nat → Nat → Nat
  | 0, _, _, _ => NO_MORE_DOCS
  | fuel + 1, bits, num_words, i =>
    if i + 1 ≥ num_words then NO_MORE_DOCS
    else if bits.getD (i + 1) 0 ≠ 0 then
      ((i + 1) <<< 6) + trailing_zeros (bits.getD (i + 1) 0)
    else nsb_loop fuel bits num_words (i + 1)

/-- The embedded `ImmutableBitSet::next_set_bit` for `FixedBitSet`. -/
def FixedBitSet.next_set_bit (f : FixedBitSet) (index : Nat) : Nat :=
  let i := index >>> 6
  let word := asr64 (f.bits.getD i 0) (index &&& 63)
  if word ≠ 0 then index + trailing_zeros word
  else nsb_loop f.num_words f.bits f.num_words i

/-- Modelled from the spec: the external `DocIterator` collaborator
(`core::search`, not among the provided sources): a forward-only iterator
exposing a current position (`doc`, `-1` when unpositioned) and an
advance-to-next-or-sentinel step over a fixed upcoming id sequence. -/
structure DocIterator where
  doc : Int
  upcoming : List Nat
  deriving DecidableEq, Repr

/-- Advancing the modelled iterator: yield the next id (or the sentinel when
exhausted) and move the current position onto it. -/
def DocIterator.next (it : DocIterator) : Nat × DocIterator :=
  match it.upcoming with
  | [] => (NO_MORE_DOCS, { doc := (NO_MORE_DOCS : Int), upcoming := [] })
  | d :: rest => (d, { doc := (d : Int), upcoming := rest })

/-- The embedded `ImmutableBitSet::assert_unpositioned`. -/
def assert_unpositioned (it : DocIterator) : Except Err Unit :=
  if it.doc ≠ -1 then .error .illegalState else .ok ()

/-- The loop of `BitSet::or`: pull ids until the sentinel, calling `set` on
each (structural recursion over the modelled upcoming sequence). -/
def or_loop (f : FixedBitSet) : List Nat → FixedBitSet × DocIterator
  | [] => (f, { doc := (NO_MORE_DOCS : Int), upcoming := [] })
  | d :: rest =>
    if d = NO_MORE_DOCS then (f, { doc := (d : Int), upcoming := rest })
    else or_loop (f.set d) rest

/-- The embedded `BitSet::or` for `FixedBitSet`: the unpositioned check runs first; the
final bit set and iterator states are returned alongside the `Result`. -/
def FixedBitSet.or (f : FixedBitSet) (it : DocIterator) :
    Except Err Unit × FixedBitSet × DocIterator :=
  match assert_unpositioned it with
  | .error e => (.error e, f, it)
  | .ok () =>
    let r := or_loop f it.upcoming
    (.ok (), r.1, r.2)

/-! Bridge lemmas for the bit set -/

theorem and_mask_63 (x : Nat) : x &&& 63 = x % 64 := by
  have h := Nat.and_pow_two_sub_one_eq_mod x 6
  norm_num at h
  exact h

theorem shiftRight6_eq_div (x : Nat) : x >>> 6 = x / 64 := by
  rw [Nat.shiftRight_eq_div_pow]

/-- For the i32-indexable sizes the claims range over, `bits2words` is the
ceiling division by 64. -/
theorem bits2words_eq {n : Nat} (h : n < 2 ^ 31) : bits2words n = (n + 63) / 64 := by
  unfold bits2words wrap32 toInt32
  rw [Int.fdiv_eq_ediv _ (by norm_num)]
  have h32 : n % 2 ^ 32 = n := Nat.mod_eq_of_lt (by omega)
  split_ifs
  all_goals omega

theorem getD_set {l : List Nat} (i j a : Nat) :
    (l.set i a).getD j 0 = if i = j ∧ i < l.length then a else l.getD j 0 := by
  rw [List.getD_eq_getElem?_getD, List.getD_eq_getElem?_getD, List.getElem?_set]
  by_cases hij : i = j
  · subst hij
    by_cases hl : i < l.length
    · simp [hl]
    · simp [hl, List.getElem?_eq_none (Nat.le_of_not_lt hl)]
  · simp [hij]

/-- Structural validity of a `FixedBitSet` as maintained by the source:
`num_words` matches `bits2words num_bits`, the backing array is large enough,
the size is i32-indexable (the type is documented for at most 2.1 billion
bits), and each word is a 64-bit pattern. -/
def FixedBitSet.WF (f : FixedBitSet) : Prop :=
  f.num_words = bits2words f.num_bits ∧
  f.num_words ≤ f.bits.length ∧
  f.num_bits < 2 ^ 31 ∧
  ∀ w ∈ f.bits, w < 2 ^ 64

/-- The ghost-bit invariant: every bit at a logical position at or beyond
`num_bits` inside the allocated words is zero. -/
def ghostClear (f : FixedBitSet) : Prop :=
  ∀ j k, j < f.bits.length → f.num_bits ≤ 64 * j + k →
    (f.bits.getD j 0).testBit k = false

/-- The embedded `get` reads exactly the `testBit` of the addressed word. -/
theorem get_eq_testBit (f : FixedBitSet) (p : Nat) :
    f.get p = (f.bits.getD (p / 64) 0).testBit (p % 64) := by
  unfold FixedBitSet.get
  rw [shiftRight6_eq_div, and_mask_63, Nat.one_shiftLeft, Nat.and_two_pow]
  cases h : (f.bits.getD (p / 64) 0).testBit (p % 64) <;>
    simp [h, (Nat.two_pow_pos (p % 64)).ne']

/-- A decidable sufficient condition for `ghostClear`. -/
theorem ghostClear_of_bounded (f : FixedBitSet)
    (hw : ∀ w ∈ f.bits, w < 2 ^ 64)
    (h : ∀ j, j < f.bits.length → ∀ k, k < 64 → f.num_bits ≤ 64 * j + k →
      (f.bits.getD j 0).testBit k = false) :
    ghostClear f := by
  intro j k hj hjk
  rcases Nat.lt_or_ge k 64 with hk | hk
  · exact h j hj k hk hjk
  · have hwlt : f.bits.getD j 0 < 2 ^ 64 := by
      rcases Nat.lt_or_ge j f.bits.length with hl | hl
      · have : f.bits.getD j 0 ∈ f.bits := by
          rw [List.getD_eq_getElem?_getD, List.getElem?_eq_getElem hl]
          exact List.getElem_mem hl
        exact hw _ this
      · omega
    have : f.bits.getD j 0 < 2 ^ k :=
      lt_of_lt_of_le hwlt (Nat.pow_le_pow_right (by norm_num) hk)
    exact Nat.testBit_eq_false_of_lt this

/-- The shifted all-ones pattern: ones at positions `r` to 63. -/
theorem allones_shl_mod {r : Nat} (h : r < 64) :
    ((2 ^ 64 - 1) <<< r) % 2 ^ 64 = 2 ^ 64 - 2 ^ r := by
  have hmul : 2 ^ r * 2 ^ (64 - r) = 2 ^ 64 := by
    rw [← pow_add]
    congr 1
    omega
  have h2 : 2 ^ 64 - 2 ^ r = 2 ^ r * (2 ^ (64 - r) - 1) := by
    rw [Nat.mul_sub_left_distrib, hmul, Nat.mul_one]
  apply Nat.eq_of_testBit_eq
  intro j
  rw [h2]
  simp only [Nat.testBit_mod_two_pow, Nat.testBit_shiftLeft,
    Nat.testBit_two_pow_sub_one, Nat.testBit_mul_pow_two]
  rcases Nat.lt_or_ge j 64 with hj | hj
  · rcases Nat.lt_or_ge j r with hr | hr
    · simp [show ¬ (r ≤ j) by omega]
    · simp [hj, show r ≤ j by omega, show j - r < 64 - r by omega,
        show j - r < 64 by omega]
  · simp [show ¬ (j < 64) by omega, show ¬ (j - r < 64 - r) by omega]

/-- The right-shifted all-ones pattern: ones at positions 0 to `63 - k`. -/
theorem allones_shr {k : Nat} (h : k ≤ 64) :
    (2 ^ 64 - 1) >>> k = 2 ^ (64 - k) - 1 := by
  apply Nat.eq_of_testBit_eq
  intro j
  simp only [Nat.testBit_shiftRight, Nat.testBit_two_pow_sub_one]
  by_cases hj : j < 64 - k
  · simp [hj, show k + j < 64 by omega]
  · simp [hj, show ¬ (k + j < 64) by omega]

/-- The embedded `start_mask` keeps exactly the bits strictly below `start % 64`. -/
theorem start_mask_eq (s : Nat) : start_mask s = 2 ^ (s % 64) - 1 := by
  unfold start_mask not64
  rw [and_mask_63, allones_shl_mod (Nat.mod_lt _ (by norm_num)),
    xor_allones (show 2 ^ 64 - 2 ^ (s % 64) < 2 ^ 64 by
      have := Nat.two_pow_pos (s % 64)
      omega)]
  have : 2 ^ (s % 64) ≤ 2 ^ 64 := Nat.pow_le_pow_right (by norm_num)
    (le_of_lt (Nat.mod_lt _ (by norm_num)))
  omega

/-- The embedded `end_mask` keeps exactly the bits at or above `end % 64` (none when
`end % 64 = 0`, where the whole final word is inside the range). -/
theorem end_mask_eq {e : Nat} (he : e < 2 ^ 64) :
    end_mask e = if e % 64 = 0 then 0 else 2 ^ 64 - 2 ^ (e % 64) := by
  unfold end_mask not64
  rw [and_mask_63, Nat.mod_mod_of_dvd _ (by norm_num)]
  have hsh : (64 + 2 ^ 64 - e % 2 ^ 64) % 64 = (64 - e % 64) % 64 := by
    rw [Nat.mod_eq_of_lt he]
    omega
  rw [hsh]
  by_cases hr : e % 64 = 0
  · rw [hr]
    norm_num
  · have h1 : (64 - e % 64) % 64 = 64 - e % 64 := by
      have := Nat.mod_lt e (show 0 < 64 by norm_num)
      omega
    have h2 : 64 - (64 - e % 64) = e % 64 := by
      have := Nat.mod_lt e (show 0 < 64 by norm_num)
      omega
    rw [h1, allones_shr (by omega), h2]
    have hle : 2 ^ (e % 64) ≤ 2 ^ 64 :=
      Nat.pow_le_pow_right (by norm_num) (le_of_lt (Nat.mod_lt _ (by norm_num)))
    rw [xor_allones (show 2 ^ (e % 64) - 1 < 2 ^ 64 by omega), if_neg hr]
    have hpos := Nat.two_pow_pos (e % 64)
    omega

/-! Claim C9 -/

/-- Claim C9: for every bit set and every iterator whose current position is
not `-1`, `or` fails with IllegalState and both the bit set and the iterator
are returned exactly as they were — the check precedes any mutation. -/
theorem C9_or_unpositioned (f : FixedBitSet) (it : DocIterator)
    (h : it.doc ≠ -1) :
    f.or it = (.error .illegalState, f, it) := by
  unfold FixedBitSet.or assert_unpositioned
  rw [if_pos h]

/-- Witness for C9. -/
theorem C9_witness :
    (FixedBitSet.new 10).or ⟨5, [1, 2]⟩ =
      (.error .illegalState, FixedBitSet.new 10, ⟨5, [1, 2]⟩) :=
  C9_or_unpositioned (FixedBitSet.new 10) ⟨5, [1, 2]⟩ (by norm_num)

/-! Claim C6 (code bug in `flip`) -/

/-- Claim C6 evaluated at the failing input: `flip` XORs the boundary words
with the complemented masks (taken verbatim from `clear`, where complementing
is correct, rather than the plain range masks), so flipping the full range
`[0, 130)` of a fresh 130-bit set SETS the ghost bits of the final word
instead of leaving them clear: the checker of the code itself,
`verify_ghost_bits_clear` rejects the result, the out-of-range position 130
reads back true, and `cardinality` is corrupted (126 instead of the 130 an
invariant-preserving flip would give). -/
theorem C6_flip_breaks_ghost_invariant :
    (FixedBitSet.new 130).verify_ghost_bits_clear = true ∧
    ((FixedBitSet.new 130).flip 0 130).verify_ghost_bits_clear = false ∧
    ((FixedBitSet.new 130).flip 0 130).get 130 = true ∧
    ((FixedBitSet.new 130).flip 0 130).cardinality = 126 := by decide

theorem testBit_start_mask (s k : Nat) :
    (start_mask s).testBit k = decide (k < s % 64) := by
  rw [start_mask_eq]
  simp [Nat.testBit_two_pow_sub_one]

theorem testBit_end_mask {e : Nat} (he : e < 2 ^ 64) (k : Nat) :
    (end_mask e).testBit k =
      (decide (e % 64 ≠ 0) && decide (e % 64 ≤ k) && decide (k < 64)) := by
  rw [end_mask_eq he]
  by_cases hr : e % 64 = 0
  · simp [hr]
  · rw [if_neg hr, ← allones_shl_mod (Nat.mod_lt _ (by norm_num))]
    simp only [Nat.testBit_mod_two_pow, Nat.testBit_shiftLeft,
      Nat.testBit_two_pow_sub_one, ge_iff_le]
    by_cases hk : k < 64 <;> by_cases hk2 : e % 64 ≤ k
    · simp [hk, hk2, hr, show k - e % 64 < 64 by omega]
    · simp [hk, hk2]
    · simp [hk]
    · simp [hk]

theorem zero_words_getD (fuel : Nat) :
    ∀ (l : List Nat) (i j : Nat),
      (zero_words fuel l i).getD j 0 =
        if i ≤ j ∧ j < i + fuel ∧ j < l.length then 0 else l.getD j 0 := by
  induction fuel with
  | zero =>
    intro l i j
    rw [zero_words, if_neg (by omega)]
  | succ fuel ih =>
    intro l i j
    rw [zero_words, ih, List.length_set, getD_set]
    split_ifs <;> omega

/-! Claim C8 -/

theorem zero_words_length (fuel : Nat) :
    ∀ (l : List Nat) (i : Nat), (zero_words fuel l i).length = l.length := by
  induction fuel with
  | zero => intro l i; rw [zero_words]
  | succ fuel ih =>
    intro l i
    rw [zero_words, ih, List.length_set]

/-- Claim C8: for every well-formed FixedBitSet and every range with
`start_index < num_bits` and `end_index <= num_bits`, after
`clear(start_index, end_index)` every bit in `[start_index, end_index)` reads
false and every bit outside the range keeps exactly its previous value; when
`end_index <= start_index` the call changes nothing at all. -/
theorem C8_clear_range (f : FixedBitSet) (s e : Nat) (hwf : f.WF)
    (hs : s < f.num_bits) (he : e ≤ f.num_bits) :
    (∀ p, (f.clearRange s e).get p = if s ≤ p ∧ p < e then false else f.get p) ∧
    (e ≤ s → f.clearRange s e = f) := by
  obtain ⟨hnw, hlen, hnb, hword⟩ := hwf
  have hb2w : bits2words f.num_bits = (f.num_bits + 63) / 64 := bits2words_eq hnb
  constructor
  swap
  · intro hse
    unfold FixedBitSet.clearRange
    rw [if_pos hse]
  intro p
  by_cases hse : e ≤ s
  · rw [show f.clearRange s e = f by unfold FixedBitSet.clearRange; rw [if_pos hse],
      if_neg (by omega)]
  push_neg at hse
  have he64 : e < 2 ^ 64 := by omega
  have hswlen : s / 64 < f.bits.length := by omega
  have hewlen : (e - 1) / 64 < f.bits.length := by omega
  rw [get_eq_testBit, get_eq_testBit]
  unfold FixedBitSet.clearRange
  rw [if_neg (by omega)]
  simp only [shiftRight6_eq_div]
  by_cases hw : s / 64 = (e - 1) / 64
  · rw [if_pos hw]
    dsimp only
    simp only [getD_set]
    split_ifs <;>
      (try simp only [Nat.testBit_and, Nat.testBit_or, testBit_start_mask,
        testBit_end_mask he64, Nat.zero_testBit, Bool.false_and, Bool.and_false]) <;>
      (first | rfl | (exfalso; omega) | skip)
    · rcases (show e % 64 = 0 ∨ ¬ (e % 64 ≤ p % 64) by omega) with h | h <;>
        simp [h, show ¬ (p % 64 < s % 64) by omega]
    · have hidx : s / 64 = p / 64 := by omega
      rw [hidx]
      rcases (show p < s ∨ e ≤ p by omega) with h | h
      · simp [show p % 64 < s % 64 by omega]
      · simp [show e % 64 ≠ 0 by omega, show e % 64 ≤ p % 64 by omega,
          show p % 64 < 64 by omega]
  · rw [if_neg hw]
    dsimp only
    simp only [zero_words_getD, zero_words_length, List.length_set, getD_set]
    split_ifs <;>
      (try simp only [Nat.testBit_and, Nat.testBit_or, testBit_start_mask,
        testBit_end_mask he64, Nat.zero_testBit, Bool.false_and, Bool.and_false]) <;>
      (first | rfl | (exfalso; omega) | skip)
    · rcases (show e % 64 = 0 ∨ ¬ (e % 64 ≤ p % 64) by omega) with h | h <;> simp [h]
    · have hidx : (e - 1) / 64 = p / 64 := by omega
      rw [hidx]
      simp [show e % 64 ≠ 0 by omega, show e % 64 ≤ p % 64 by omega,
        show p % 64 < 64 by omega]
    · simp [show ¬ (p % 64 < s % 64) by omega]
    · have hidx : s / 64 = p / 64 := by omega
      rw [hidx]
      simp [show p % 64 < s % 64 by omega]

/-- Witness for C8: a concrete clear of `[3, 68)` on a 130-bit set with bits
5 and 70 set clears bit 5 and leaves bit 70 untouched. -/
theorem C8_witness :
    ((((FixedBitSet.new 130).set 5).set 70).clearRange 3 68).get 5 = false ∧
    ((((FixedBitSet.new 130).set 5).set 70).clearRange 3 68).get 70 =
      (((FixedBitSet.new 130).set 5).set 70).get 70 := by
  have h := C8_clear_range (((FixedBitSet.new 130).set 5).set 70) 3 68
    (by unfold FixedBitSet.WF; decide) (by decide) (by decide)
  refine ⟨?_, ?_⟩
  · have h5 := h.1 5
    simpa using h5
  · have h70 := h.1 70
    simpa using h70

/-! Claim C2 (corrected) -/

/-- Counterexample to claim C2 as stated: on a set built by `copy_from` with
a 3-word backing array for 64 bits, `ensure_capacity(100)` changes nothing —
in particular `num_bits` stays 64, so the new logical capacity
`num_words * 64 = 64` is NOT at least the requested 100. -/
theorem C2_counterexample :
    (FixedBitSet.copy_from [0, 0, 0] 64).map
      (fun f => ((f.ensure_capacity 100).num_bits, (f.ensure_capacity 100).num_words,
                 (f.ensure_capacity 100).bits)) = .ok (64, 1, [0, 0, 0]) ∧
    ¬ (100 ≤ 64) := by decide

/-- Growing keeps every stored word readable at the same position and the new
tail reads zero. -/
theorem resize_getD (l : List Nat) (n j : Nat) (h : l.length ≤ n) :
    (resize l n).getD j 0 = l.getD j 0 := by
  unfold resize
  by_cases hc : n ≤ l.length
  · rw [if_pos hc, show n = l.length by omega, List.take_length]
  · rw [if_neg hc]
    rcases Nat.lt_or_ge j l.length with hj | hj
    · rw [List.getD_eq_getElem?_getD, List.getD_eq_getElem?_getD,
        List.getElem?_append_left hj]
    · rw [List.getD_eq_getElem?_getD, List.getD_eq_getElem?_getD,
        List.getElem?_append_right hj, List.getElem?_replicate,
        List.getElem?_eq_none hj]
      split_ifs <;> rfl

/-- Claim C2 amended: `ensure_capacity(m)` with `m < num_bits` changes
nothing.  With `m >= num_bits` it reallocates — to one extra word beyond the
minimum, preserving every existing bit, clearing all newly addressable bits,
and setting the new logical capacity to `num_words * 64 >= m` — ONLY when
`bits2words m` reaches the current backing length; when the backing array
(e.g. one adopted oversized by `copy_from`) already has more than
`bits2words m` words, the call changes nothing at all: `num_bits` and
`num_words` are not updated and the logical capacity may remain below `m`. -/
theorem C2_ensure_capacity (f : FixedBitSet) (m : Nat) (hwf : f.WF)
    (hg : ghostClear f) (hm : m < 2 ^ 31) :
    (m < f.num_bits → f.ensure_capacity m = f) ∧
    (f.num_bits ≤ m → f.bits.length ≤ bits2words m →
      (f.ensure_capacity m).num_words = bits2words m + 1 ∧
      (f.ensure_capacity m).num_bits = (bits2words m + 1) * 64 ∧
      m ≤ (f.ensure_capacity m).num_bits ∧
      (f.ensure_capacity m).num_bits = (f.ensure_capacity m).num_words * 64 ∧
      (∀ p, p < f.num_bits → (f.ensure_capacity m).get p = f.get p) ∧
      (∀ p, f.num_bits ≤ p → (f.ensure_capacity m).get p = false)) ∧
    (f.num_bits ≤ m → bits2words m < f.bits.length → f.ensure_capacity m = f) := by
  obtain ⟨hnw, hlen, hnb, hword⟩ := hwf
  have hb2w : bits2words f.num_bits = (f.num_bits + 63) / 64 := bits2words_eq hnb
  have hb2m : bits2words m = (m + 63) / 64 := bits2words_eq hm
  refine ⟨?_, ?_, ?_⟩
  · intro hlt
    unfold FixedBitSet.ensure_capacity
    rw [if_neg (by omega)]
  · intro hge hbig
    have hgrow : f.ensure_capacity m =
        { bits := resize f.bits (bits2words m + 1)
          num_words := bits2words m + 1
          num_bits := (bits2words m + 1) <<< 6 } := by
      unfold FixedBitSet.ensure_capacity
      rw [if_pos (by omega)]
      dsimp only
      rw [if_pos (by omega)]
    rw [hgrow]
    have hsh : (bits2words m + 1) <<< 6 = (bits2words m + 1) * 64 := by
      rw [Nat.shiftLeft_eq]
    refine ⟨rfl, hsh, ?_, hsh, ?_, ?_⟩
    · show m ≤ (bits2words m + 1) <<< 6
      rw [hsh]
      omega
    · intro p hp
      rw [get_eq_testBit, get_eq_testBit]
      dsimp only
      rw [resize_getD _ _ _ (by omega)]
    · intro p hp
      rw [get_eq_testBit]
      dsimp only
      rw [resize_getD _ _ _ (by omega)]
      rcases Nat.lt_or_ge (p / 64) f.bits.length with hj | hj
      · exact hg (p / 64) (p % 64) hj (by omega)
      · rw [List.getD_eq_getElem?_getD, List.getElem?_eq_none (by omega)]
        exact Nat.zero_testBit _
  · intro hge hsmall
    unfold FixedBitSet.ensure_capacity
    rw [if_pos (by omega)]
    dsimp only
    rw [if_neg (by omega)]

/-- Witness for the amended C2: the oversized-backing no-op case at a
concrete input. -/
theorem C2_witness :
    FixedBitSet.ensure_capacity ⟨[0, 0, 0], 64, 1⟩ 100 = ⟨[0, 0, 0], 64, 1⟩ :=
  (C2_ensure_capacity ⟨[0, 0, 0], 64, 1⟩ 100 (by unfold FixedBitSet.WF; decide)
    (ghostClear_of_bounded _ (by decide) (by decide)) (by decide)).2.2
    (by decide) (by decide)

/-! Claim C7 -/

/-- The embedded `pop_aux fuel` counts the set bits among the low `fuel` positions. -/
theorem pop_aux_spec (fuel : Nat) : ∀ w : Nat,
    pop_aux fuel w = List.countP (fun j => w.testBit j) (List.range fuel) := by
  induction fuel with
  | zero => intro w; rfl
  | succ fuel ih =>
    intro w
    rw [pop_aux, List.range_succ_eq_map, List.countP_cons, List.countP_map, ih (w / 2)]
    have hfun : ((fun j => w.testBit j) ∘ Nat.succ) = fun j => (w / 2).testBit j := by
      funext j
      simp [Function.comp, Nat.testBit_add_one]
    rw [hfun]
    rcases Nat.mod_two_eq_zero_or_one w with h | h <;> simp [Nat.testBit_zero, h] <;>
      omega

theorem getD_take (l : List Nat) (n j : Nat) :
    (l.take n).getD j 0 = if j < n then l.getD j 0 else 0 := by
  rw [List.getD_eq_getElem?_getD, List.getD_eq_getElem?_getD]
  by_cases h : j < n
  · rw [List.getElem?_take_of_lt h, if_pos h]
  · have hlen : (l.take n).length ≤ j := by
      rw [List.length_take]
      omega
    rw [List.getElem?_eq_none hlen, if_neg h]
    rfl

/-- Popcount summed over a word list equals the number of set positions in
the bit-packed view of that list. -/
theorem sum_map_count_ones (ws : List Nat) :
    (ws.map count_ones).sum =
      List.countP (fun p => (ws.getD (p / 64) 0).testBit (p % 64))
        (List.range (64 * ws.length)) := by
  induction ws with
  | nil => rfl
  | cons w ws ih =>
    have hA : count_ones w =
        List.countP (fun p => ((w :: ws).getD (p / 64) 0).testBit (p % 64))
          (List.range 64) := by
      rw [count_ones, pop_aux_spec]
      apply List.countP_congr
      intro p hp
      have hp64 : p < 64 := List.mem_range.mp hp
      simp [Nat.mod_eq_of_lt hp64, Nat.div_eq_of_lt hp64]
    have hB : (ws.map count_ones).sum =
        List.countP ((fun p => ((w :: ws).getD (p / 64) 0).testBit (p % 64)) ∘ (64 + ·))
          (List.range (64 * ws.length)) := by
      rw [ih]
      apply List.countP_congr
      intro q hq
      have h1 : (64 + q) / 64 = q / 64 + 1 := by omega
      have h2 : (64 + q) % 64 = q % 64 := by omega
      simp [Function.comp, h1, h2]
    rw [List.map_cons, List.sum_cons, List.length_cons,
      show 64 * (ws.length + 1) = 64 + 64 * ws.length by ring,
      List.range_add, List.countP_append, List.countP_map, hA, hB]

/-- Claim C7: for every well-formed FixedBitSet satisfying the ghost-bit
invariant, `cardinality()` is the popcount summed over exactly the first
`num_words` words, and equals the number of indices `i` below `num_bits`
with `get(i) = true`. -/
theorem C7_cardinality (f : FixedBitSet) (hwf : f.WF) (hg : ghostClear f) :
    f.cardinality = pop_array f.bits 0 f.num_words ∧
    f.cardinality = List.countP (fun i => f.get i) (List.range f.num_bits) := by
  obtain ⟨hnw, hlen, hnb, hword⟩ := hwf
  have hb2w : bits2words f.num_bits = (f.num_bits + 63) / 64 := bits2words_eq hnb
  refine ⟨rfl, ?_⟩
  have hcard : f.cardinality = ((f.bits.take f.num_words).map count_ones).sum := rfl
  rw [hcard, sum_map_count_ones, List.length_take,
    show min f.num_words f.bits.length = f.num_words by omega,
    show 64 * f.num_words = f.num_bits + (64 * f.num_words - f.num_bits) by omega,
    List.range_add, List.countP_append]
  have h2 : List.countP
      (fun p => ((f.bits.take f.num_words).getD (p / 64) 0).testBit (p % 64))
      ((List.range (64 * f.num_words - f.num_bits)).map (f.num_bits + ·)) = 0 := by
    rw [List.countP_map, List.countP_eq_zero]
    intro q hq
    have hq2 : q < 64 * f.num_words - f.num_bits := List.mem_range.mp hq
    have hjw : (f.num_bits + q) / 64 < f.num_words := by omega
    simp only [Function.comp, getD_take, if_pos hjw]
    rw [hg ((f.num_bits + q) / 64) ((f.num_bits + q) % 64) (by omega) (by omega)]
    simp
  rw [h2, Nat.add_zero]
  apply List.countP_congr
  intro p hp
  have hpnb : p < f.num_bits := List.mem_range.mp hp
  have hpw : p / 64 < f.num_words := by omega
  rw [get_eq_testBit, getD_take, if_pos hpw]

/-- Witness for C7: the 130-bit scenario with bits 0, 64 and 129 set has
cardinality 3, the number of true positions. -/
theorem C7_witness :
    ((((FixedBitSet.new 130).set 0).set 64).set 129).cardinality =
      List.countP (fun i => (((FixedBitSet.new 130).set 0).set 64).set 129 |>.get i)
        (List.range 130) ∧
    ((((FixedBitSet.new 130).set 0).set 64).set 129).cardinality = 3 := by
  refine ⟨(C7_cardinality ((((FixedBitSet.new 130).set 0).set 64).set 129)
    (by unfold FixedBitSet.WF; decide)
    (ghostClear_of_bounded _ (by decide) (by decide))).2, by decide⟩

/-! Claim C5: helper lemmas -/

/-- The embedded `ctz_aux` returns the position of the least set bit. -/
theorem ctz_aux_spec (fuel : Nat) : ∀ w, w ≠ 0 → w < 2 ^ fuel →
    w.testBit (ctz_aux fuel w) = true ∧
    ∀ j, j < ctz_aux fuel w → w.testBit j = false := by
  induction fuel with
  | zero =>
    intro w h0 hlt
    omega
  | succ fuel ih =>
    intro w h0 hlt
    rw [ctz_aux]
    by_cases hm : w % 2 = 1
    · rw [if_pos hm]
      exact ⟨by simp [Nat.testBit_zero, hm], by omega⟩
    · rw [if_neg hm]
      have h2 : w / 2 ≠ 0 := by omega
      have hp : 2 ^ (fuel + 1) = 2 * 2 ^ fuel := by
        rw [pow_succ]
        ring
      have h3 : w / 2 < 2 ^ fuel := by omega
      obtain ⟨ha, hb⟩ := ih (w / 2) h2 h3
      refine ⟨by rw [Nat.testBit_add_one]; exact ha, ?_⟩
      intro j hj
      match j with
      | 0 => simp [Nat.testBit_zero, hm]
      | j + 1 =>
        rw [Nat.testBit_add_one]
        exact hb j (by omega)

/-- The embedded `trailing_zeros` of a nonzero 64-bit pattern is its least set bit. -/
theorem trailing_zeros_spec (w : Nat) (h0 : w ≠ 0) (hw : w < 2 ^ 64) :
    w.testBit (trailing_zeros w) = true ∧
    ∀ j, j < trailing_zeros w → w.testBit j = false :=
  ctz_aux_spec 64 w h0 hw

theorem trailing_zeros_unique (w c : Nat) (hw : w < 2 ^ 64)
    (h1 : w.testBit c = true) (h2 : ∀ j, j < c → w.testBit j = false) :
    trailing_zeros w = c := by
  have h0 : w ≠ 0 := by
    intro h
    rw [h, Nat.zero_testBit] at h1
    exact Bool.false_ne_true h1
  obtain ⟨ha, hb⟩ := trailing_zeros_spec w h0 hw
  rcases Nat.lt_trichotomy (trailing_zeros w) c with h | h | h
  · rw [h2 _ h] at ha
    exact absurd ha (by simp)
  · exact h
  · rw [hb _ h] at h1
    exact absurd h1 (by simp)

/-- The bits below `r` of `2 ^ 64 - 2 ^ r` are zero. -/
theorem testBit_high_sub {r k : Nat} (hr : r ≤ 64) (hk : k < r) :
    (2 ^ 64 - 2 ^ r).testBit k = false := by
  have hmul : 2 ^ r * 2 ^ (64 - r) = 2 ^ 64 := by
    rw [← pow_add]
    congr 1
    omega
  have h2 : 2 ^ 64 - 2 ^ r = 2 ^ r * (2 ^ (64 - r) - 1) := by
    rw [Nat.mul_sub_left_distrib, hmul, Nat.mul_one]
  rw [h2, Nat.testBit_mul_pow_two]
  simp [show ¬ (r ≤ k) by omega]

/-- Below position `64 - k`, the arithmetic shift agrees with the logical
shift. -/
theorem asr64_testBit {w k : Nat} (hk : k < 64) (j : Nat) (hj : j < 64 - k) :
    (asr64 w k).testBit j = w.testBit (k + j) := by
  unfold asr64
  by_cases hs : w < 2 ^ 63
  · rw [if_pos hs, Nat.testBit_shiftRight]
  · rw [if_neg hs, Nat.testBit_or, Nat.testBit_shiftRight]
    by_cases hk0 : k = 0
    · subst hk0
      rw [show ((2 ^ 64 - 1) <<< (64 - 0)) % 2 ^ 64 = 0 by
        rw [Nat.shiftLeft_eq]
        simp [Nat.mul_mod_left]]
      simp
    · rw [allones_shl_mod (by omega), testBit_high_sub (by omega) (by omega),
        Bool.or_false]

/-- Bit 63 of a pattern in the upper half is set. -/
theorem testBit_63 {w : Nat} (h1 : 2 ^ 63 ≤ w) (h2 : w < 2 ^ 64) :
    w.testBit 63 = true := by
  rw [Nat.testBit_to_div_mod, show w / 2 ^ 63 = 1 by omega]
  simp

/-- The arithmetic shift is zero exactly when the logical shift is. -/
theorem asr64_zero_iff {w k : Nat} (hw : w < 2 ^ 64) (hk : k < 64) :
    asr64 w k = 0 ↔ w >>> k = 0 := by
  constructor
  · intro h
    have hle : w >>> k ≤ asr64 w k := by
      unfold asr64
      by_cases hs : w < 2 ^ 63
      · rw [if_pos hs]
      · rw [if_neg hs]
        exact Nat.le_of_testBit (fun i hi => by
          rw [Nat.testBit_or, hi, Bool.true_or])
    rw [h] at hle
    exact Nat.le_zero.mp hle
  · intro h
    by_cases hs : w < 2 ^ 63
    · unfold asr64
      rw [if_pos hs]
      exact h
    · exfalso
      have hbit : (w >>> k).testBit (63 - k) = true := by
        rw [Nat.testBit_shiftRight, show k + (63 - k) = 63 by omega]
        exact testBit_63 (by omega) hw
      rw [h, Nat.zero_testBit] at hbit
      exact Bool.false_ne_true hbit

/-- When the logical shift is nonzero, both shifts have the same trailing
zero count. -/
theorem asr64_trailing_zeros {w k : Nat} (hw : w < 2 ^ 64) (hk : k < 64)
    (hnz : w >>> k ≠ 0) :
    trailing_zeros (asr64 w k) = trailing_zeros (w >>> k) := by
  have hlsr : w >>> k < 2 ^ (64 - k) := by
    rw [Nat.shiftRight_eq_div_pow]
    apply Nat.div_lt_of_lt_mul
    calc w < 2 ^ 64 := hw
    _ ≤ 2 ^ k * 2 ^ (64 - k) := by
      rw [← pow_add]
      apply Nat.pow_le_pow_right (by norm_num)
      omega
  obtain ⟨ha, hb⟩ := trailing_zeros_spec (w >>> k) hnz
    (lt_of_lt_of_le hlsr (Nat.pow_le_pow_right (by norm_num) (by omega)))
  have hc : trailing_zeros (w >>> k) < 64 - k := by
    have hge := Nat.testBit_implies_ge ha
    by_contra hcon
    have : 2 ^ (64 - k) ≤ 2 ^ trailing_zeros (w >>> k) :=
      Nat.pow_le_pow_right (by norm_num) (by omega)
    omega
  apply trailing_zeros_unique
  · unfold asr64
    split_ifs
    · exact lt_of_lt_of_le hlsr (Nat.pow_le_pow_right (by norm_num) (by omega))
    · apply Nat.or_lt_two_pow (lt_of_lt_of_le hlsr
        (Nat.pow_le_pow_right (by norm_num) (by omega)))
      exact Nat.mod_lt _ (by norm_num)
  · rw [asr64_testBit hk _ hc, ← Nat.testBit_shiftRight]
    exact ha
  · intro j hj
    rw [asr64_testBit hk _ (by omega), ← Nat.testBit_shiftRight]
    exact hb j hj

/-- The scan loop returns the sentinel when every remaining word is zero. -/
theorem nsb_loop_none (fuel : Nat) : ∀ (bits : List Nat) (nw i : Nat),
    nw ≤ i + 1 + fuel →
    (∀ j, i < j → j < nw → bits.getD j 0 = 0) →
    nsb_loop fuel bits nw i = NO_MORE_DOCS := by
  induction fuel with
  | zero =>
    intro bits nw i hfuel hzero
    rfl
  | succ fuel ih =>
    intro bits nw i hfuel hzero
    rw [nsb_loop]
    by_cases hnw : i + 1 ≥ nw
    · rw [if_pos hnw]
    · rw [if_neg hnw, if_neg (by
        simp only [ne_eq, Decidable.not_not]
        exact hzero (i + 1) (by omega) (by omega))]
      exact ih bits nw (i + 1) (by omega) (fun j h1 h2 => hzero j (by omega) h2)

/-- The scan loop finds the first nonzero word beyond the start index. -/
theorem nsb_loop_found (fuel : Nat) : ∀ (bits : List Nat) (nw i j : Nat),
    j ≤ i + fuel → i < j → j < nw →
    bits.getD j 0 ≠ 0 →
    (∀ j2, i < j2 → j2 < j → bits.getD j2 0 = 0) →
    nsb_loop fuel bits nw i = (j <<< 6) + trailing_zeros (bits.getD j 0) := by
  induction fuel with
  | zero =>
    intro bits nw i j hfuel hij hjnw hnz hzero
    omega
  | succ fuel ih =>
    intro bits nw i j hfuel hij hjnw hnz hzero
    rw [nsb_loop, if_neg (by omega)]
    by_cases hj1 : j = i + 1
    · rw [if_pos (by rw [← hj1]; exact hnz), hj1]
    · rw [if_neg (by
        simp only [ne_eq, Decidable.not_not]
        exact hzero (i + 1) (by omega) (by omega))]
      exact ih bits nw (i + 1) j (by omega) (by omega) hjnw hnz
        (fun j2 h1 h2 => hzero j2 (by omega) h2)

theorem getD_words_lt (f : FixedBitSet) (hword : ∀ w ∈ f.bits, w < 2 ^ 64)
    (j : Nat) : f.bits.getD j 0 < 2 ^ 64 := by
  rcases Nat.lt_or_ge j f.bits.length with h | h
  · rw [List.getD_eq_getElem?_getD, List.getElem?_eq_getElem h]
    exact hword _ (List.getElem_mem h)
  · rw [List.getD_eq_getElem?_getD, List.getElem?_eq_none h]
    norm_num

theorem shiftRight_lt_64 {w r : Nat} (hw : w < 2 ^ 64) (hr : r ≤ 64) :
    w >>> r < 2 ^ (64 - r) := by
  rw [Nat.shiftRight_eq_div_pow]
  apply Nat.div_lt_of_lt_mul
  calc w < 2 ^ 64 := hw
  _ ≤ 2 ^ r * 2 ^ (64 - r) := by
    rw [← pow_add]
    apply Nat.pow_le_pow_right (by norm_num)
    omega

/-- Claim C5: for every well-formed FixedBitSet satisfying the ghost-bit
invariant and every `index < num_bits`, `next_set_bit(index)` returns the
smallest position `p >= index` whose bit is set, or the `NO_MORE_DOCS`
sentinel when no such position exists; in particular, on a 130-bit set with
exactly bits 0, 64 and 129 set, `next_set_bit(1) = 64` and
`next_set_bit(65) = 129`. -/
theorem C5_next_set_bit :
    (∀ (f : FixedBitSet), f.WF → ghostClear f → ∀ index, index < f.num_bits →
      (f.next_set_bit index = NO_MORE_DOCS ∧
        ∀ p, index ≤ p → p < f.num_bits → f.get p = false) ∨
      (index ≤ f.next_set_bit index ∧ f.next_set_bit index < f.num_bits ∧
        f.get (f.next_set_bit index) = true ∧
        ∀ p, index ≤ p → p < f.next_set_bit index → f.get p = false)) ∧
    ((((FixedBitSet.new 130).set 0).set 64).set 129).next_set_bit 1 = 64 ∧
    ((((FixedBitSet.new 130).set 0).set 64).set 129).next_set_bit 65 = 129 := by
  refine ⟨?_, by decide, by decide⟩
  intro f hwf hg index hidx
  obtain ⟨hnw, hlen, hnb, hword⟩ := hwf
  have hb2w : bits2words f.num_bits = (f.num_bits + 63) / 64 := bits2words_eq hnb
  have hgetD := getD_words_lt f hword
  have hr64 : index % 64 < 64 := Nat.mod_lt _ (by norm_num)
  have hi0len : index / 64 < f.bits.length := by omega
  have hcase : (asr64 (f.bits.getD (index / 64) 0) (index % 64) ≠ 0 →
      f.next_set_bit index
        = index + trailing_zeros (asr64 (f.bits.getD (index / 64) 0) (index % 64))) ∧
      (asr64 (f.bits.getD (index / 64) 0) (index % 64) = 0 →
      f.next_set_bit index = nsb_loop f.num_words f.bits f.num_words (index / 64)) := by
    unfold FixedBitSet.next_set_bit
    rw [shiftRight6_eq_div, and_mask_63]
    constructor
    · intro h
      dsimp only
      rw [if_pos h]
    · intro h
      dsimp only
      rw [if_neg (by simpa using h)]
  by_cases hzero : asr64 (f.bits.getD (index / 64) 0) (index % 64) = 0
  · -- the start word has no set bit at or beyond index % 64
    have hlsr : f.bits.getD (index / 64) 0 >>> (index % 64) = 0 :=
      (asr64_zero_iff (hgetD _) hr64).mp hzero
    have hword0 : ∀ q, index % 64 ≤ q →
        (f.bits.getD (index / 64) 0).testBit q = false := by
      intro q hq
      have h1 : (f.bits.getD (index / 64) 0).testBit (index % 64 + (q - index % 64))
          = (f.bits.getD (index / 64) 0 >>> (index % 64)).testBit (q - index % 64) :=
        (Nat.testBit_shiftRight _).symm
      rw [show q = index % 64 + (q - index % 64) by omega, h1, hlsr, Nat.zero_testBit]
    rw [hcase.2 hzero]
    by_cases hex : ∃ j, index / 64 < j ∧ j < f.num_words ∧ f.bits.getD j 0 ≠ 0
    · -- some later word is nonzero; the loop finds the first one
      right
      have hP := Nat.find_spec hex
      obtain ⟨hj0i, hj0nw, hj0nz⟩ := hP
      have hmin : ∀ j2, index / 64 < j2 → j2 < Nat.find hex →
          f.bits.getD j2 0 = 0 := by
        intro j2 h1 h2
        by_contra hc
        exact (Nat.find_min hex h2) ⟨h1, by omega, hc⟩
      rw [nsb_loop_found f.num_words f.bits f.num_words (index / 64) (Nat.find hex)
        (by omega) hj0i hj0nw hj0nz hmin]
      obtain ⟨ha, hb⟩ := trailing_zeros_spec (f.bits.getD (Nat.find hex) 0) hj0nz
        (hgetD _)
      have hc64 : trailing_zeros (f.bits.getD (Nat.find hex) 0) < 64 := by
        have hge := Nat.testBit_implies_ge ha
        by_contra hcon
        have : 2 ^ 64 ≤ 2 ^ trailing_zeros (f.bits.getD (Nat.find hex) 0) :=
          Nat.pow_le_pow_right (by norm_num) (by omega)
        have := hgetD (Nat.find hex)
        omega
      rw [Nat.shiftLeft_eq, show (2 : Nat) ^ 6 = 64 by norm_num]
      set j0 := Nat.find hex with hj0def
      set c := trailing_zeros (f.bits.getD j0 0) with hcdef
      have hj0len : j0 < f.bits.length := by omega
      have hqdiv : (j0 * 64 + c) / 64 = j0 := by omega
      have hqmod : (j0 * 64 + c) % 64 = c := by omega
      have hget : f.get (j0 * 64 + c) = true := by
        rw [get_eq_testBit, hqdiv, hqmod]
        exact ha
      have hlt : j0 * 64 + c < f.num_bits := by
        by_contra hcon
        have hgf := hg j0 c hj0len (by omega)
        rw [hgf] at ha
        exact Bool.false_ne_true ha
      refine ⟨by omega, hlt, hget, ?_⟩
      intro p hp1 hp2
      rw [get_eq_testBit]
      rcases Nat.lt_trichotomy (p / 64) j0 with hpj | hpj | hpj
      · rcases Nat.lt_or_ge (p / 64) (index / 64 + 1) with hpi | hpi
        · have hpi0 : p / 64 = index / 64 := by omega
          rw [hpi0]
          exact hword0 (p % 64) (by omega)
        · rw [hmin (p / 64) (by omega) hpj, Nat.zero_testBit]
      · rw [hpj]
        exact hb (p % 64) (by omega)
      · omega
    · -- all later words are zero: sentinel, and no set bit remains
      left
      push_neg at hex
      refine ⟨nsb_loop_none f.num_words f.bits f.num_words (index / 64) (by omega)
        (fun j h1 h2 => hex j h1 h2), ?_⟩
      intro p hp1 hp2
      rw [get_eq_testBit]
      rcases Nat.lt_or_ge (p / 64) (index / 64 + 1) with hpi | hpi
      · have hpi0 : p / 64 = index / 64 := by omega
        rw [hpi0]
        exact hword0 (p % 64) (by omega)
      · rw [hex (p / 64) (by omega) (by omega), Nat.zero_testBit]
  · -- the start word has a set bit at or beyond index % 64
    right
    have hlsr : f.bits.getD (index / 64) 0 >>> (index % 64) ≠ 0 := by
      intro hc
      exact hzero ((asr64_zero_iff (hgetD _) hr64).mpr hc)
    rw [hcase.1 hzero, asr64_trailing_zeros (hgetD _) hr64 hlsr]
    obtain ⟨ha, hb⟩ := trailing_zeros_spec _ hlsr
      (lt_of_lt_of_le (shiftRight_lt_64 (hgetD (index / 64)) (by omega))
        (Nat.pow_le_pow_right (by norm_num) (by omega)))
    set c := trailing_zeros (f.bits.getD (index / 64) 0 >>> (index % 64)) with hcdef
    have hc64 : c < 64 - index % 64 := by
      have hge := Nat.testBit_implies_ge ha
      by_contra hcon
      have h1 : 2 ^ (64 - index % 64) ≤ 2 ^ c :=
        Nat.pow_le_pow_right (by norm_num) (by omega)
      have h2 := shiftRight_lt_64 (hgetD (index / 64)) (le_of_lt hr64)
      omega
    have hqdiv : (index + c) / 64 = index / 64 := by omega
    have hqmod : (index + c) % 64 = index % 64 + c := by omega
    have hget : f.get (index + c) = true := by
      rw [get_eq_testBit, hqdiv, hqmod, ← Nat.testBit_shiftRight]
      exact ha
    have hlt : index + c < f.num_bits := by
      by_contra hcon
      have := hg (index / 64) (index % 64 + c) hi0len (by omega)
      rw [get_eq_testBit, hqdiv, hqmod] at hget
      rw [this] at hget
      simp at hget
    refine ⟨by omega, hlt, hget, ?_⟩
    intro p hp1 hp2
    rw [get_eq_testBit]
    have hpi0 : p / 64 = index / 64 := by omega
    rw [hpi0, show p % 64 = index % 64 + (p % 64 - index % 64) by omega,
      ← Nat.testBit_shiftRight]
    exact hb (p % 64 - index % 64) (by omega)

/-- Witness for C5: the universally quantified part applied to the concrete
130-bit scenario at index 1. -/
theorem C5_witness :
    (((((FixedBitSet.new 130).set 0).set 64).set 129).next_set_bit 1 = NO_MORE_DOCS ∧
      ∀ p, 1 ≤ p → p < ((((FixedBitSet.new 130).set 0).set 64).set 129).num_bits →
        ((((FixedBitSet.new 130).set 0).set 64).set 129).get p = false) ∨
    (1 ≤ ((((FixedBitSet.new 130).set 0).set 64).set 129).next_set_bit 1 ∧
      ((((FixedBitSet.new 130).set 0).set 64).set 129).next_set_bit 1 <
        ((((FixedBitSet.new 130).set 0).set 64).set 129).num_bits ∧
      ((((FixedBitSet.new 130).set 0).set 64).set 129).get
        (((((FixedBitSet.new 130).set 0).set 64).set 129).next_set_bit 1) = true ∧
      ∀ p, 1 ≤ p → p < ((((FixedBitSet.new 130).set 0).set 64).set 129).next_set_bit 1 →
        ((((FixedBitSet.new 130).set 0).set 64).set 129).get p = false) :=
  C5_next_set_bit.1 ((((FixedBitSet.new 130).set 0).set 64).set 129)
    (by unfold FixedBitSet.WF; decide)
    (ghostClear_of_bounded _ (by decide) (by decide)) 1 (by decide)
